import Mathlib

/-!
# SSD1306 OLED driver (`oled_ssd1306.cpp`): embedding and verified properties

The driver keeps no frame buffer.  Every drawing primitive computes the bytes of one
display column (8 page bytes) and streams them over the two-wire bus.  The embedding
below follows the C++ source function by function:

* `uint8_t` / `uint16_t` values are natural numbers, with an explicit `% 256` /
  `% 65536` wherever the source arithmetic can wrap;
* the bus (`Wire`) is a log of completed transactions; `Wire_beginTransmission`,
  `Wire_write` and `Wire_endTransmission` collect the bytes of the open transaction;
* arrays are lists; a store or a read outside the array is undefined behaviour in the
  source and makes the embedded function return `none`;
* loops are recursive functions on a fuel argument, started with enough fuel for the
  largest number of iterations an 8-bit counter allows; running out of fuel (`none`)
  therefore means that the source loop does not terminate.
-/

namespace Ssd1306

/-! ## Constants -/

def FONT_DATA_OFFSET : Nat := 2

def SSD1306_Command_Mode : Nat := 0x80
def SSD1306_Data_Mode : Nat := 0x40
def SSD1306_Display_Off_Cmd : Nat := 0xAE
def SSD1306_Display_On_Cmd : Nat := 0xAF
def SSD1306_Normal_Display_Cmd : Nat := 0xA6
def SSD1306_Inverse_Display_Cmd : Nat := 0xA7
def SSD1306_Set_Brightness_Cmd : Nat := 0x81

/-! ## State -/

/-- One completed bus transaction: the address it was opened with and the bytes written
between `beginTransmission` and `endTransmission`, in order. -/
structure Txn where
  addr : Nat
  bytes : List Nat
  deriving DecidableEq

/-- The file-level variables of the driver together with the bus.  `m_font` is the font
table (declared in `font7x8.h`, which is not part of the sources), taken as a parameter:
`m_font k` is the table element at index `k`. -/
structure Oled where
  m_font : Nat → Nat
  m_address : Nat
  m_font_width : Nat
  m_draw_pos : Nat
  txAddress : Nat
  txBuffer : List Nat
  wire : List Txn

/-- Value of `a - b` stored in a `uint8_t` (wrap-around subtraction). -/
def sub8 (a b : Nat) : Nat := (a % 256 + 256 - b % 256) % 256

/-- The macro `pgm_read_byte(&font[index])`: one byte of the font table. -/
def pgm_read_byte (font : Nat → Nat) (index : Nat) : Nat := font index % 256

/-- The statement `buf[k] |= m` on a byte array: out of bounds it is undefined. -/
def orAt (buf : List Nat) (k m : Nat) : Option (List Nat) :=
  if k < buf.length then some (buf.set k ((buf.getD k 0 ||| m) % 256)) else none

/-! ## Bus primitives -/

def Wire_beginTransmission (st : Oled) (address : Nat) : Oled :=
  { st with txAddress := address, txBuffer := [] }

def Wire_write (st : Oled) (b : Nat) : Oled :=
  { st with txBuffer := st.txBuffer ++ [b] }

def Wire_endTransmission (st : Oled) : Oled :=
  { st with wire := st.wire ++ [⟨st.txAddress, st.txBuffer⟩], txBuffer := [] }

/-! ## `send_command`, `reset_segment`, `send_data` -/

def send_command (st : Oled) (command : Nat) : Oled :=
  let st := Wire_beginTransmission st st.m_address
  let st := Wire_write st SSD1306_Command_Mode
  let st := Wire_write st command
  Wire_endTransmission st

def reset_segment (st : Oled) : Oled :=
  let st := Wire_beginTransmission st st.m_address
  let st := Wire_write st SSD1306_Command_Mode
  let st := Wire_write st 0x22
  let st := Wire_write st SSD1306_Command_Mode
  let st := Wire_write st 0
  let st := Wire_write st SSD1306_Command_Mode
  let st := Wire_write st 7
  Wire_endTransmission st

/-- The loop `while (len--) { Wire.write(*data); data++; }`.  `data` is the part of the
array from the pointer to its end; reading past it is undefined. -/
def send_data_loop : Nat → List Nat → Oled → Option Oled
  | 0, _, st => some st
  | _ + 1, [], _ => none
  | len + 1, d :: data, st => send_data_loop len data (Wire_write st d)

def send_data (st : Oled) (data : List Nat) (len : Nat) : Option Oled :=
  let resetSegment : Bool := len != 8
  let st := Wire_beginTransmission st st.m_address
  let st :=
    if st.m_draw_pos != 0xFF then
      let st := Wire_write st SSD1306_Command_Mode
      let st := Wire_write st 0x21
      let st := Wire_write st SSD1306_Command_Mode
      let st := Wire_write st st.m_draw_pos
      let st := Wire_write st SSD1306_Command_Mode
      Wire_write st st.m_draw_pos
    else st
  let st := Wire_write st SSD1306_Data_Mode
  match send_data_loop len data st with
  | none => none
  | some st =>
    let st := { st with m_draw_pos := (st.m_draw_pos + 1) % 256 }
    let st := Wire_endTransmission st
    some (if resetSegment then reset_segment st else st)

def oled_set_y (st : Oled) (y : Nat) : Oled :=
  { st with m_draw_pos := y }

/-! ## Glyph rasteriser -/

/-- The initialiser `offset = 7 - (x >> 3)` of both glyph-line routines. -/
def glyph_offset (x : Nat) : Nat := sub8 7 (x >>> 3)

/-- The initialiser `maskX = 1 << (7 - (x & 0b111))` of both glyph-line routines. -/
def glyph_mask (x : Nat) : Nat := (1 <<< (7 - (x &&& 7))) % 256

/-- The loop of `draw_glyph_line`: `while (i < 7) { ... offset += 8; i++; }`. -/
def draw_glyph_line_loop (l maskX : Nat) : Nat → List Nat → Nat → Nat → Option (List Nat)
  | 0, _, _, _ => none
  | fuel + 1, buf, offset, i =>
    if i < 7 then
      (if (1 <<< i) &&& l ≠ 0 then orAt buf offset maskX else some buf).bind fun buf =>
        draw_glyph_line_loop l maskX fuel buf ((offset + 8) % 256) ((i + 1) % 256)
    else some buf

def draw_glyph_line (buf : List Nat) (l x : Nat) : Option (List Nat) :=
  draw_glyph_line_loop l (glyph_mask x) 8 buf (glyph_offset x) 0

/-- The loop of `draw_glyph_line_inv`: `while (i < 8) { ... offset += 8; i++; }`. -/
def draw_glyph_line_inv_loop (l maskX : Nat) :
    Nat → List Nat → Nat → Nat → Option (List Nat)
  | 0, _, _, _ => none
  | fuel + 1, buf, offset, i =>
    if i < 8 then
      (if ¬ ((1 <<< i) &&& l ≠ 0) then orAt buf offset maskX else some buf).bind fun buf =>
        draw_glyph_line_inv_loop l maskX fuel buf ((offset + 8) % 256) ((i + 1) % 256)
    else some buf

def draw_glyph_line_inv (buf : List Nat) (l x : Nat) : Option (List Nat) :=
  draw_glyph_line_inv_loop l (glyph_mask x) 9 buf (glyph_offset x) 0

/-- The inner loop of `oled_draw_string`: `for (j = 0; j < m_font_width; j++)`.
Returns the buffer together with the updated `x` and `index`. -/
def glyph_columns (st : Oled) (inverse : Bool) :
    Nat → List Nat → Nat → Nat → Nat → Option (List Nat × Nat × Nat)
  | 0, _, _, _, _ => none
  | fuel + 1, buf, j, x, index =>
    if j < st.m_font_width then
      let l := pgm_read_byte st.m_font index
      (if inverse then draw_glyph_line_inv buf l x else draw_glyph_line buf l x).bind
        fun buf =>
          glyph_columns st inverse fuel buf ((j + 1) % 256) ((x + 1) % 256)
            ((index + 1) % 65536)
    else some (buf, x, index)

/-- The outer loop of `oled_draw_string`: `while (text[i]) { ... x++; i++; }`.  `text`
holds the character codes (`0..255`) of the C string; the terminating zero follows the
last element. -/
def string_loop (st : Oled) (text : List Nat) (inverse : Bool) :
    Nat → List Nat → Nat → Nat → Option (List Nat)
  | 0, _, _, _ => none
  | fuel + 1, buf, i, x =>
    if text.getD i 0 ≠ 0 then
      let index :=
        ((text.getD i 0 + 65536 - 32) * st.m_font_width + FONT_DATA_OFFSET) % 65536
      (glyph_columns st inverse 257 buf 0 x index).bind fun r =>
        (if inverse then draw_glyph_line_inv r.1 0x0 r.2.1 else some r.1).bind fun buf =>
          string_loop st text inverse fuel buf ((i + 1) % 256) ((r.2.1 + 1) % 256)
    else some buf

/-- Lines 186-207 of `oled_draw_string`: the 64-byte buffer after the text is drawn. -/
def oled_draw_string_buf (st : Oled) (text : List Nat) (inverse : Bool) :
    Option (List Nat) :=
  string_loop st text inverse 257 (List.replicate 64 0) 0 0

/-- The loop `for (i = 0; i < 56; i += 8) send_data(buf + i, 8);`. -/
def stream_loop (buf : List Nat) : Nat → Oled → Nat → Option Oled
  | 0, _, _ => none
  | fuel + 1, st, i =>
    if i < 56 then
      (send_data st (buf.drop i) 8).bind fun st => stream_loop buf fuel st ((i + 8) % 256)
    else some st

def oled_draw_string (st : Oled) (text : List Nat) (inverse : Bool) : Option Oled :=
  (oled_draw_string_buf st text inverse).bind fun buf =>
    (stream_loop buf 8 st 0).bind fun st =>
      if inverse then send_data st (buf.drop 56) 8 else some st

/-! ## Horizontal line -/

/-- The loop `while (x1 < x2) { i = 63 - x1; buf[i >> 3] |= 1 << (i & 0b111); x1++; }`. -/
def h_line_fill (x2 : Nat) : Nat → List Nat → Nat → Option (List Nat)
  | 0, _, _ => none
  | fuel + 1, buf, x1 =>
    if x1 < x2 then
      let i := sub8 63 x1
      (orAt buf (i >>> 3) (1 <<< (i &&& 7))).bind fun buf =>
        h_line_fill x2 fuel buf ((x1 + 1) % 256)
    else some buf

/-- The scan `while (i < 8) { if (buf[i] != 0) { if (s == 255) s = i; cnt++; } i++; }`.
Returns `(s, cnt)`. -/
def h_line_scan (buf : List Nat) : Nat → Nat → Nat → Nat → Option (Nat × Nat)
  | 0, _, _, _ => none
  | fuel + 1, i, s, cnt =>
    if i < 8 then
      if buf.getD i 0 ≠ 0 then
        h_line_scan buf fuel ((i + 1) % 256) (if s = 255 then i else s) ((cnt + 1) % 256)
      else h_line_scan buf fuel ((i + 1) % 256) s cnt
    else some (s, cnt)

/-- The start offset and length handed to `send_data`: the scan result after
`cnt += s; s = 0;`. -/
def h_line_span (buf : List Nat) : Option (Nat × Nat) :=
  (h_line_scan buf 9 0 255 0).bind fun r => some (0, (r.2 + r.1) % 256)

def oled_draw_h_line (st : Oled) (x1 x2 y color : Nat) : Option Oled :=
  (h_line_fill x2 257 (List.replicate 8 0) x1).bind fun buf =>
    (h_line_span buf).bind fun r =>
      let st := { st with m_draw_pos := y }
      if color ≠ 0 then send_data st (buf.drop r.1) r.2
      else send_data st ((List.replicate 8 0).drop r.1) r.2

/-! ## Vertical line, clear, brightness, inverse video -/

/-- The loop `while (y1 < y2) { d = y2 - y1; if (d > 8) d = 8; m_draw_pos = 0xFF;
send_data(buf, d); y1 += d; }` of `oled_draw_v_line`. -/
def v_line_loop (buf : List Nat) (y2 : Nat) : Nat → Oled → Nat → Option Oled
  | 0, _, _ => none
  | fuel + 1, st, y1 =>
    if y1 < y2 then
      let d := sub8 y2 y1
      let d := if d > 8 then 8 else d
      let st := { st with m_draw_pos := 0xFF }
      (send_data st buf d).bind fun st => v_line_loop buf y2 fuel st ((y1 + d) % 256)
    else some st

def oled_draw_v_line (st : Oled) (y1 y2 x : Nat) : Option Oled :=
  let pos := st.m_draw_pos
  let st := Wire_beginTransmission st st.m_address
  let st := Wire_write st SSD1306_Command_Mode
  let st := Wire_write st 0x21
  let st := Wire_write st SSD1306_Command_Mode
  let st := Wire_write st 0
  let st := Wire_write st SSD1306_Command_Mode
  let st := Wire_write st 127
  let st := Wire_write st SSD1306_Command_Mode
  let st := Wire_write st 0x22
  let st := Wire_write st SSD1306_Command_Mode
  let st := Wire_write st 0
  let st := Wire_write st SSD1306_Command_Mode
  let st := Wire_write st 7
  let st := Wire_endTransmission st
  let i := sub8 63 x
  let b := (1 <<< (i &&& 7)) % 256
  let st := send_command st ((0xB0 + (i >>> 3)) % 256)
  let st := send_command st ((0x00 + (y1 &&& 0x0F)) % 256)
  let st := send_command st ((0x10 + ((y1 >>> 4) &&& 0x0F)) % 256)
  let buf := List.replicate 8 b
  (v_line_loop buf y2 257 st y1).bind fun st =>
    let st := { st with m_draw_pos := pos }
    some (reset_segment st)

/-- The loop `for (j = 0; j < 128; j++) send_data(data, 8);` of `oled_clear_display`. -/
def clear_loop (data : List Nat) : Nat → Oled → Nat → Option Oled
  | 0, _, _ => none
  | fuel + 1, st, j =>
    if j < 128 then
      (send_data st data 8).bind fun st => clear_loop data fuel st ((j + 1) % 256)
    else some st

def oled_clear_display (st : Oled) : Option Oled :=
  let data := [0, 0, 0, 0, 0, 0, 0, 0]
  let st := oled_set_y st 0
  let st := send_command st SSD1306_Display_Off_Cmd
  (clear_loop data 129 st 0).bind fun st =>
    some (send_command st SSD1306_Display_On_Cmd)

def oled_set_brightness (st : Oled) (brightness : Nat) : Oled :=
  let st := send_command st SSD1306_Set_Brightness_Cmd
  send_command st brightness

def oled_set_inverse (st : Oled) (inverse : Bool) : Oled :=
  send_command st
    (if inverse then SSD1306_Inverse_Display_Cmd else SSD1306_Normal_Display_Cmd)

/-- Pixel `(x, i)` of the 64-byte string buffer: bit `maskX` of the byte at
`offset + 8 * i`, with `offset` and `maskX` as `draw_glyph_line` computes them for `x`. -/
def pixel (buf : List Nat) (x i : Nat) : Bool :=
  (buf.getD (glyph_offset x + 8 * i) 0 &&& glyph_mask x) != 0

/-- Row `r` of a font column byte `l` is drawn: in normal mode the rows `r < 7` whose bit
is set, in inverse mode the rows `r < 8` whose bit is clear. -/
def lit (inverse : Bool) (l r : Nat) : Prop :=
  if inverse then r < 8 ∧ l.testBit r = false else r < 7 ∧ l.testBit r = true

/-- Row `r` of column `d` of the `m`-th character cell of `text` is drawn: the columns
`d < m_font_width` show the font bytes of the character, the column after them is filled
in inverse mode and left blank in normal mode. -/
def cell_lit (st : Oled) (text : List Nat) (inverse : Bool) (m d r : Nat) : Prop :=
  if d < st.m_font_width then
    lit inverse
      (pgm_read_byte st.m_font
        ((((text.getD m 0 + 65536 - 32) * st.m_font_width + FONT_DATA_OFFSET) % 65536 + d)
          % 65536)) r
  else inverse = true ∧ r < 8

/-- Index of the first non-zero byte of a buffer (its length when all bytes are zero). -/
def first_nonzero (buf : List Nat) : Nat := buf.findIdx (fun v => v != 0)

/-- Number of non-zero bytes of a buffer. -/
def count_nonzero (buf : List Nat) : Nat := buf.countP (fun v => v != 0)

/-- The transaction `send_data` writes for the payload bytes `payload` when the current
column is `p`: the one-column clip (unless `p` is the raw-mode value), the data-mode
marker, the payload. -/
def data_burst (addr p : Nat) (payload : List Nat) : Txn :=
  ⟨addr, (if p = 0xFF then [] else [0x80, 0x21, 0x80, p, 0x80, p]) ++ 0x40 :: payload⟩

/-- The transactions the data loop of `oled_draw_v_line` sends for `n` rows and fill byte
`b`: `ceil (n / 8)` raw-mode bursts, burst `k` carrying `min 8 (n - 8 k)` bytes `b`,
followed by the window reset that `send_data` issues after a burst shorter than 8. -/
def v_line_bursts (addr b n : Nat) : List Txn :=
  (List.range ((n + 7) / 8)).map
      (fun k => (⟨addr, 0x40 :: List.replicate (min 8 (n - 8 * k)) b⟩ : Txn))
    ++ (if n % 8 = 0 then [] else [⟨addr, [0x80, 0x22, 0x80, 0, 0x80, 7]⟩])

/-- The payload of a transaction that has the shape of a data burst: the bytes after the
data-mode marker `0x40`, which either opens the transaction (raw mode) or follows the
six bytes of a column-address command. -/
def burst_payload (t : Txn) : Option (List Nat) :=
  if t.bytes.head? = some 0x40 then some t.bytes.tail
  else if t.bytes.take 3 = [0x80, 0x21, 0x80] ∧ (t.bytes.drop 4).take 1 = [0x80] ∧
      (t.bytes.drop 6).take 1 = [0x40] then some (t.bytes.drop 7)
  else none

/-- Every transaction of the list that has the shape of a data burst carries between 1
and 8 payload bytes. -/
def bursts_in_range (emitted : List Txn) : Prop :=
  ∀ t ∈ emitted, ∀ payload, burst_payload t = some payload →
    1 ≤ payload.length ∧ payload.length ≤ 8

/-- A concrete driver state used to evaluate the functions: bus address `0x3C`, a font of
width 2 whose column bytes are `k % 128`, current column `p`, and an empty bus log. -/
def sample_state (p : Nat) : Oled :=
  { m_font := fun k => k % 128, m_address := 0x3C, m_font_width := 2, m_draw_pos := p,
    txAddress := 0, txBuffer := [], wire := [] }

/-! ## Basic arithmetic facts -/

theorem glyph_offset_eq (x : Nat) (hx : x < 64) : glyph_offset x = 7 - x / 8 := by
  unfold glyph_offset sub8
  rw [Nat.shiftRight_eq_div_pow]
  omega

theorem glyph_mask_eq (x : Nat) : glyph_mask x = 2 ^ (7 - x % 8) := by
  unfold glyph_mask
  have h7 : x &&& 7 = x % 8 := Nat.and_pow_two_sub_one_eq_mod x 3
  rw [h7, Nat.one_shiftLeft]
  apply Nat.mod_eq_of_lt
  calc 2 ^ (7 - x % 8) ≤ 2 ^ 7 := Nat.pow_le_pow_right (by decide) (by omega)
    _ < 256 := by decide

/-! ## Byte arrays -/

theorem getD_set_eq (buf : List Nat) (k v k' : Nat) :
    (buf.set k v).getD k' 0 = if k' = k ∧ k < buf.length then v else buf.getD k' 0 := by
  simp only [List.getD_eq_getElem?_getD, List.getElem?_set]
  by_cases h : k = k'
  · subst h
    by_cases h2 : k < buf.length
    · simp [h2]
    · simp [h2, List.getElem?_eq_none (Nat.le_of_not_lt h2)]
  · have h' : ¬ k' = k := fun e => h e.symm
    simp [h, h']

theorem shift_and_eq (i : Nat) : i >>> 3 = i / 8 ∧ i &&& 7 = i % 8 ∧ 1 <<< i = 2 ^ i :=
  ⟨Nat.shiftRight_eq_div_pow i 3, Nat.and_pow_two_sub_one_eq_mod i 3, Nat.one_shiftLeft i⟩

theorem two_pow_lt_256 (n : Nat) (h : n < 8) : 2 ^ n < 256 :=
  calc 2 ^ n ≤ 2 ^ 7 := Nat.pow_le_pow_right (by decide) (by omega)
    _ < 256 := by decide

/-- Effect of `buf[k] |= m` inside the array, for a mask that fits a byte. -/
theorem orAt_spec (buf : List Nat) (k m : Nat) (hk : k < buf.length) (hm : m < 256)
    (hb : ∀ j, buf.getD j 0 < 256) :
    ∃ buf', orAt buf k m = some buf' ∧ buf'.length = buf.length ∧
      (∀ j, buf'.getD j 0 < 256) ∧
      ∀ j b, (buf'.getD j 0).testBit b = true ↔
        ((buf.getD j 0).testBit b = true ∨ (j = k ∧ m.testBit b = true)) := by
  have hlt : buf.getD k 0 ||| m < 256 :=
    Nat.or_lt_two_pow (n := 8) (hb k) hm
  refine ⟨buf.set k (buf.getD k 0 ||| m), ?_, by simp, ?_, ?_⟩
  · unfold orAt
    rw [if_pos hk, Nat.mod_eq_of_lt hlt]
  · intro j
    rw [getD_set_eq]
    split
    · exact hlt
    · exact hb j
  · intro j b
    rw [getD_set_eq]
    by_cases hj : j = k
    · subst hj
      simp [hk, Nat.testBit_or]
    · simp [hj]

/-! ## The horizontal-line buffer -/

theorem h_line_fill_spec (x2 : Nat) (hx2 : x2 ≤ 64) :
    ∀ (fuel x1 : Nat) (buf : List Nat), x1 ≤ x2 → x2 - x1 < fuel → buf.length = 8 →
      (∀ j, buf.getD j 0 < 256) →
      ∃ buf', h_line_fill x2 fuel buf x1 = some buf' ∧ buf'.length = 8 ∧
        (∀ j, buf'.getD j 0 < 256) ∧
        ∀ k b, (buf'.getD k 0).testBit b = true ↔
          ((buf.getD k 0).testBit b = true ∨
            ∃ x, x1 ≤ x ∧ x < x2 ∧ k = 7 - x / 8 ∧ b = 7 - x % 8) := by
  intro fuel
  induction fuel with
  | zero => intro x1 buf _ h; omega
  | succ n ih =>
    intro x1 buf hle hfuel hlen hb
    unfold h_line_fill
    by_cases hlt : x1 < x2
    · have hi : sub8 63 x1 = 63 - x1 := by unfold sub8; omega
      obtain ⟨e1, e2, e3⟩ := shift_and_eq (63 - x1)
      have e4 : 1 <<< ((63 - x1) % 8) = 2 ^ ((63 - x1) % 8) := Nat.one_shiftLeft _
      obtain ⟨buf1, h1, hlen1, hb1, hbit1⟩ :=
        orAt_spec buf ((63 - x1) / 8) (2 ^ ((63 - x1) % 8)) (by omega)
          (two_pow_lt_256 _ (by omega)) hb
      obtain ⟨buf2, h2, hlen2, hb2, hbit2⟩ :=
        ih (x1 + 1) buf1 (by omega) (by omega) (by omega) hb1
      have hmod : (x1 + 1) % 256 = x1 + 1 := by omega
      refine ⟨buf2, ?_, hlen2, hb2, ?_⟩
      · simp only [hlt, if_true, hi, e1, e2, e4, h1, Option.some_bind, hmod, h2]
      · intro k b
        rw [hbit2, hbit1, Nat.testBit_two_pow]
        constructor
        · rintro ((h | ⟨hk, hbb⟩) | ⟨x, hx1, hx2', hk, hbb⟩)
          · exact Or.inl h
          · refine Or.inr ⟨x1, le_refl _, hlt, ?_, ?_⟩
            · omega
            · have := of_decide_eq_true hbb
              omega
          · exact Or.inr ⟨x, by omega, hx2', hk, hbb⟩
        · rintro (h | ⟨x, hx1, hx2', hk, hbb⟩)
          · exact Or.inl (Or.inl h)
          · by_cases hx : x = x1
            · subst hx
              refine Or.inl (Or.inr ⟨by omega, ?_⟩)
              apply decide_eq_true
              omega
            · exact Or.inr ⟨x, by omega, hx2', hk, hbb⟩
    · have hx : x1 = x2 := by omega
      refine ⟨buf, by simp [hlt], hlen, hb, ?_⟩
      intro k b
      constructor
      · intro h; exact Or.inl h
      · rintro (h | ⟨x, hx1, hx2', _, _⟩)
        · exact h
        · omega

theorem getD_replicate_zero (n j : Nat) : (List.replicate n 0).getD j 0 = 0 := by
  simp only [List.getD_eq_getElem?_getD, List.getElem?_replicate]
  split <;> rfl

/-- C2: for `x1 < x2 <= 64` the column buffer `oled_draw_h_line` builds before the scan
has bit `7 - (x & 7)` of byte `7 - (x >> 3)` set exactly for the rows `x1 <= x < x2`;
every other bit of the 8 bytes is clear (and each element is a byte). -/
theorem h_line_buffer_bits (x1 x2 : Nat) (h12 : x1 < x2) (h2 : x2 ≤ 64) :
    ∃ buf, h_line_fill x2 257 (List.replicate 8 0) x1 = some buf ∧ buf.length = 8 ∧
      (∀ k, buf.getD k 0 < 256) ∧
      ∀ k b, k < 8 → b < 8 →
        ((buf.getD k 0).testBit b = true ↔
          ∃ x, x1 ≤ x ∧ x < x2 ∧ k = 7 - (x >>> 3) ∧ b = 7 - (x &&& 7)) := by
  obtain ⟨buf, h, hlen, hb, hbit⟩ :=
    h_line_fill_spec x2 h2 257 x1 (List.replicate 8 0) (by omega) (by omega) (by simp)
      (by intro j; rw [getD_replicate_zero]; decide)
  refine ⟨buf, h, hlen, hb, ?_⟩
  intro k b _ _
  rw [hbit, getD_replicate_zero]
  simp only [Nat.zero_testBit, Bool.false_eq_true, false_or]
  constructor
  · rintro ⟨x, a, b', c, d⟩
    exact ⟨x, a, b', by rw [(shift_and_eq x).1]; exact c,
      by rw [(shift_and_eq x).2.1]; exact d⟩
  · rintro ⟨x, a, b', c, d⟩
    exact ⟨x, a, b', by rw [(shift_and_eq x).1] at c; exact c,
      by rw [(shift_and_eq x).2.1] at d; exact d⟩

theorem h_line_buffer_bits_witness :
    ∃ buf, h_line_fill 12 257 (List.replicate 8 0) 4 = some buf ∧ buf.length = 8 ∧
      (∀ k, buf.getD k 0 < 256) ∧
      ∀ k b, k < 8 → b < 8 →
        ((buf.getD k 0).testBit b = true ↔
          ∃ x, 4 ≤ x ∧ x < 12 ∧ k = 7 - (x >>> 3) ∧ b = 7 - (x &&& 7)) :=
  h_line_buffer_bits 4 12 (by decide) (by decide)

/-! ## The span scan of `oled_draw_h_line` -/

theorem h_line_scan_spec (buf : List Nat) (hlen : buf.length = 8) :
    ∀ (fuel i s cnt : Nat), i ≤ 8 → 8 - i < fuel → cnt + (8 - i) < 256 →
      h_line_scan buf fuel i s cnt
        = some (if s = 255 ∧ first_nonzero (buf.drop i) < 8 - i
                  then i + first_nonzero (buf.drop i) else s,
                cnt + count_nonzero (buf.drop i)) := by
  intro fuel
  induction fuel with
  | zero => intro i s cnt _ h; omega
  | succ n ih =>
    intro i s cnt hi hfuel hcnt
    unfold h_line_scan
    by_cases h8 : i < 8
    · have hdrop : buf.drop i = buf.getD i 0 :: buf.drop (i + 1) := by
        rw [List.getD_eq_getElem buf 0 (by omega)]
        exact List.drop_eq_getElem_cons (by omega)
      have hmod : (i + 1) % 256 = i + 1 := by omega
      rw [if_pos h8, hmod]
      by_cases hz : buf.getD i 0 = 0
      · rw [if_neg (by simpa using hz), ih (i + 1) s cnt (by omega) (by omega) (by omega)]
        rw [hdrop]
        simp only [first_nonzero, count_nonzero, List.findIdx_cons, List.countP_cons, hz]
        simp only [bne_self_eq_false, cond_false, Bool.false_eq_true, if_false,
          Nat.add_zero]
        refine congrArg some (Prod.ext ?_ ?_)
        · dsimp only
          split_ifs <;> omega
        · rfl
      · have hmod2 : (cnt + 1) % 256 = cnt + 1 := by omega
        have hp : (buf.getD i 0 != 0) = true := by simpa using hz
        rw [if_pos hz, hmod2,
          ih (i + 1) _ (cnt + 1) (by omega) (by omega) (by omega)]
        rw [hdrop]
        simp only [first_nonzero, count_nonzero, List.findIdx_cons, List.countP_cons, hp]
        simp only [cond_true, if_true]
        refine congrArg some (Prod.ext ?_ ?_)
        · dsimp only
          split_ifs <;> omega
        · dsimp only
          omega
    · have hi8 : i = 8 := by omega
      subst hi8
      rw [if_neg h8, List.drop_of_length_le (by omega)]
      simp [first_nonzero, count_nonzero]

/-- A list whose non-zero elements are exactly those at the indices of `[a, c)` has its
first non-zero element at `a` and `c - a` non-zero elements. -/
theorem interval_nonzero (buf : List Nat) :
    ∀ (a c : Nat), a ≤ c → c ≤ buf.length →
      (∀ k, k < buf.length → (buf.getD k 0 ≠ 0 ↔ a ≤ k ∧ k < c)) →
      count_nonzero buf = c - a ∧ (a < c → first_nonzero buf = a) := by
  induction buf with
  | nil =>
    intro a c hac hc _
    simp at hc
    subst hc
    simp [count_nonzero]
  | cons v t ih =>
    intro a c hac hc h
    have h0 := h 0 (by simp)
    simp only [List.getD_cons_zero] at h0
    have ht : ∀ k, k < t.length → (t.getD k 0 ≠ 0 ↔ a - 1 ≤ k ∧ k < c - 1 ∧ a ≤ k + 1) := by
      intro k hk
      have := h (k + 1) (by simpa using hk)
      simp only [List.getD_cons_succ] at this
      rw [this]
      omega
    simp only [List.length_cons] at hc
    by_cases hv : v = 0
    · have ha : ¬ (a ≤ 0 ∧ 0 < c) := fun hh => (h0.2 hh) hv
      obtain ⟨hc1, hf1⟩ := ih (a - 1) (c - 1) (by omega) (by omega) (by
        intro k hk
        rw [ht k hk]
        omega)
      simp only [first_nonzero, count_nonzero, List.findIdx_cons, List.countP_cons, hv]
        at hc1 hf1 ⊢
      simp only [bne_self_eq_false, cond_false, Bool.false_eq_true, if_false, Nat.add_zero]
      constructor
      · omega
      · intro hlt
        have := hf1 (by omega)
        omega
    · have ha : a ≤ 0 ∧ 0 < c := h0.1 hv
      have hp : (v != 0) = true := by simpa using hv
      obtain ⟨hc1, _⟩ := ih 0 (c - 1) (by omega) (by omega) (by
        intro k hk
        rw [ht k hk]
        omega)
      simp only [first_nonzero, count_nonzero, List.findIdx_cons, List.countP_cons, hp]
        at hc1 ⊢
      simp only [cond_true, if_true]
      constructor
      · omega
      · intro _
        omega

/-- The non-zero bytes of the buffer built for `x1 < x2 <= 64` are those at the indices
`7 - (x2 - 1) / 8 .. 7 - x1 / 8`. -/
theorem h_line_buffer_nonzero (x1 x2 : Nat) (h12 : x1 < x2) (h2 : x2 ≤ 64) :
    ∃ buf, h_line_fill x2 257 (List.replicate 8 0) x1 = some buf ∧ buf.length = 8 ∧
      (∀ k, buf.getD k 0 < 256) ∧
      ∀ k, (buf.getD k 0 ≠ 0 ↔ 7 - (x2 - 1) / 8 ≤ k ∧ k < 8 - x1 / 8) := by
  obtain ⟨buf, h, hlen, hb, hbit⟩ :=
    h_line_fill_spec x2 h2 257 x1 (List.replicate 8 0) (by omega) (by omega) (by simp)
      (by intro j; rw [getD_replicate_zero]; decide)
  refine ⟨buf, h, hlen, hb, ?_⟩
  intro k
  constructor
  · intro hne
    obtain ⟨b, hb'⟩ := Nat.ne_zero_implies_bit_true hne
    rw [hbit, getD_replicate_zero] at hb'
    simp only [Nat.zero_testBit, Bool.false_eq_true, false_or] at hb'
    obtain ⟨x, _, _, _, _⟩ := hb'
    omega
  · rintro ⟨ha, hc⟩ hz
    have hx : (buf.getD k 0).testBit (7 - (max x1 (8 * (7 - k))) % 8) = true := by
      rw [hbit]
      exact Or.inr ⟨max x1 (8 * (7 - k)), by omega, by omega, by omega, rfl⟩
    rw [hz] at hx
    simp at hx

/-- C3 (as stated, refuted): for `x1 = 4`, `x2 = 12` only bytes 6 and 7 of the column
buffer are non-zero and the scan finds `s = 6`, `cnt = 2`, but the span handed to
`send_data` is start offset 0 and length 8: the data transaction carries all 8 bytes. -/
theorem h_line_4_12_sends_eight_bytes :
    h_line_fill 12 257 (List.replicate 8 0) 4 = some [0, 0, 0, 0, 0, 0, 0xF0, 0x0F] ∧
    h_line_scan [0, 0, 0, 0, 0, 0, 0xF0, 0x0F] 9 0 255 0 = some (6, 2) ∧
    h_line_span [0, 0, 0, 0, 0, 0, 0xF0, 0x0F] = some (0, 8) ∧
    (oled_draw_h_line (sample_state 0) 4 12 5 1).map (fun st => st.wire)
      = some [⟨0x3C, [0x80, 0x21, 0x80, 5, 0x80, 5, 0x40, 0, 0, 0, 0, 0, 0, 0xF0, 0x0F]⟩] ∧
    ¬ (h_line_span [0, 0, 0, 0, 0, 0, 0xF0, 0x0F] = some (6, 2)) := by
  refine ⟨by decide, by decide, by decide, by decide, by decide⟩

/-- C3 (amended): for `x1 < x2 <= 64` the scan of `oled_draw_h_line` finds the index `s`
of the first non-zero byte and the number `cnt` of non-zero bytes of the column buffer,
and the span handed to `send_data` starts at offset 0 and has length `s + cnt`: it holds
the `s` leading zero bytes and all non-zero bytes, which are those at the indices of
`[s, s + cnt)`. -/
theorem h_line_span_starts_at_zero (st : Oled) (x1 x2 y color : Nat) (h12 : x1 < x2)
    (h2 : x2 ≤ 64) :
    ∃ buf, h_line_fill x2 257 (List.replicate 8 0) x1 = some buf ∧
      first_nonzero buf < 8 ∧ 1 ≤ count_nonzero buf ∧
      h_line_scan buf 9 0 255 0 = some (first_nonzero buf, count_nonzero buf) ∧
      h_line_span buf = some (0, first_nonzero buf + count_nonzero buf) ∧
      first_nonzero buf + count_nonzero buf ≤ 8 ∧
      (∀ k, buf.getD k 0 ≠ 0 ↔
        first_nonzero buf ≤ k ∧ k < first_nonzero buf + count_nonzero buf) ∧
      oled_draw_h_line st x1 x2 y color
        = send_data { st with m_draw_pos := y }
            (if color ≠ 0 then buf else List.replicate 8 0)
            (first_nonzero buf + count_nonzero buf) := by
  obtain ⟨buf, hfill, hlen, _, hnz⟩ := h_line_buffer_nonzero x1 x2 h12 h2
  obtain ⟨hcnt, hfirst⟩ := interval_nonzero buf (7 - (x2 - 1) / 8) (8 - x1 / 8)
    (by omega) (by omega) (fun k _ => hnz k)
  have hfirst' := hfirst (by omega)
  have hscan : h_line_scan buf 9 0 255 0 = some (first_nonzero buf, count_nonzero buf) := by
    rw [h_line_scan_spec buf hlen 9 0 255 0 (by omega) (by omega) (by omega)]
    simp only [List.drop_zero, Nat.sub_zero, Nat.zero_add, true_and]
    rw [if_pos (by omega)]
  have hspan : h_line_span buf = some (0, first_nonzero buf + count_nonzero buf) := by
    unfold h_line_span
    rw [hscan]
    simp only [Option.some_bind]
    have : (count_nonzero buf + first_nonzero buf) % 256
        = first_nonzero buf + count_nonzero buf := by omega
    rw [this]
  refine ⟨buf, hfill, by omega, by omega, hscan, hspan, by omega, ?_, ?_⟩
  · intro k
    rw [hnz k]
    omega
  · unfold oled_draw_h_line
    rw [hfill]
    simp only [Option.some_bind, hspan, List.drop_zero]
    by_cases hc : color = 0
    · simp [hc]
    · simp [hc]

theorem h_line_span_starts_at_zero_witness :
    ∃ buf, h_line_fill 12 257 (List.replicate 8 0) 4 = some buf ∧
      first_nonzero buf < 8 ∧ 1 ≤ count_nonzero buf ∧
      h_line_scan buf 9 0 255 0 = some (first_nonzero buf, count_nonzero buf) ∧
      h_line_span buf = some (0, first_nonzero buf + count_nonzero buf) ∧
      first_nonzero buf + count_nonzero buf ≤ 8 ∧
      (∀ k, buf.getD k 0 ≠ 0 ↔
        first_nonzero buf ≤ k ∧ k < first_nonzero buf + count_nonzero buf) ∧
      oled_draw_h_line (sample_state 0) 4 12 5 1
        = send_data { (sample_state 0) with m_draw_pos := 5 }
            (if 1 ≠ 0 then buf else List.replicate 8 0)
            (first_nonzero buf + count_nonzero buf) :=
  h_line_span_starts_at_zero (sample_state 0) 4 12 5 1 (by decide) (by decide)

/-! ## One glyph column -/

theorem and_mask_ne_zero (i l : Nat) : ((1 <<< i) &&& l ≠ 0) ↔ l.testBit i = true := by
  rw [Nat.one_shiftLeft, Nat.and_comm, Nat.and_two_pow]
  have : 0 < 2 ^ i := Nat.two_pow_pos i
  cases l.testBit i <;> simp

theorem draw_glyph_line_loop_spec (l m o : Nat) (hm : m < 256) (ho : o ≤ 7) :
    ∀ (fuel i : Nat) (buf : List Nat), i ≤ 7 → 7 - i < fuel → buf.length = 64 →
      (∀ j, buf.getD j 0 < 256) →
      ∃ buf', draw_glyph_line_loop l m fuel buf (o + 8 * i) i = some buf' ∧
        buf'.length = 64 ∧ (∀ j, buf'.getD j 0 < 256) ∧
        ∀ k b, (buf'.getD k 0).testBit b = true ↔
          ((buf.getD k 0).testBit b = true ∨
            ∃ r, i ≤ r ∧ r < 7 ∧ l.testBit r = true ∧ k = o + 8 * r ∧ m.testBit b = true) := by
  intro fuel
  induction fuel with
  | zero => intro i buf _ h; omega
  | succ n ih =>
    intro i buf hi hfuel hlen hb
    unfold draw_glyph_line_loop
    by_cases h7 : i < 7
    · have hoff : (o + 8 * i + 8) % 256 = o + 8 * (i + 1) := by omega
      have hmod : (i + 1) % 256 = i + 1 := by omega
      rw [if_pos h7, hoff, hmod]
      by_cases hbit : l.testBit i = true
      · rw [if_pos ((and_mask_ne_zero i l).2 hbit)]
        obtain ⟨buf1, h1, hlen1, hb1, hbit1⟩ := orAt_spec buf (o + 8 * i) m (by omega) hm hb
        obtain ⟨buf2, h2, hlen2, hb2, hbit2⟩ :=
          ih (i + 1) buf1 (by omega) (by omega) (by omega) hb1
        refine ⟨buf2, by rw [h1, Option.some_bind, h2], hlen2, hb2, ?_⟩
        intro k b
        rw [hbit2, hbit1]
        constructor
        · rintro ((h | ⟨hk, hmb⟩) | ⟨r, hr1, hr2, hl, hk, hmb⟩)
          · exact Or.inl h
          · exact Or.inr ⟨i, le_refl _, h7, hbit, hk, hmb⟩
          · exact Or.inr ⟨r, by omega, hr2, hl, hk, hmb⟩
        · rintro (h | ⟨r, hr1, hr2, hl, hk, hmb⟩)
          · exact Or.inl (Or.inl h)
          · by_cases hr : r = i
            · subst hr
              exact Or.inl (Or.inr ⟨hk, hmb⟩)
            · exact Or.inr ⟨r, by omega, hr2, hl, hk, hmb⟩
      · rw [if_neg (fun h => hbit ((and_mask_ne_zero i l).1 h))]
        obtain ⟨buf2, h2, hlen2, hb2, hbit2⟩ :=
          ih (i + 1) buf (by omega) (by omega) hlen hb
        refine ⟨buf2, by rw [Option.some_bind, h2], hlen2, hb2, ?_⟩
        intro k b
        rw [hbit2]
        constructor
        · rintro (h | ⟨r, hr1, hr2, hl, hk, hmb⟩)
          · exact Or.inl h
          · exact Or.inr ⟨r, by omega, hr2, hl, hk, hmb⟩
        · rintro (h | ⟨r, hr1, hr2, hl, hk, hmb⟩)
          · exact Or.inl h
          · by_cases hr : r = i
            · subst hr
              exact absurd hl hbit
            · exact Or.inr ⟨r, by omega, hr2, hl, hk, hmb⟩
    · have hi7 : i = 7 := by omega
      refine ⟨buf, by rw [if_neg h7], hlen, hb, ?_⟩
      intro k b
      constructor
      · intro h; exact Or.inl h
      · rintro (h | ⟨r, hr1, hr2, _⟩)
        · exact h
        · omega

theorem draw_glyph_line_inv_loop_spec (l m o : Nat) (hm : m < 256) (ho : o ≤ 7) :
    ∀ (fuel i : Nat) (buf : List Nat), i ≤ 8 → 8 - i < fuel → buf.length = 64 →
      (∀ j, buf.getD j 0 < 256) →
      ∃ buf', draw_glyph_line_inv_loop l m fuel buf (o + 8 * i) i = some buf' ∧
        buf'.length = 64 ∧ (∀ j, buf'.getD j 0 < 256) ∧
        ∀ k b, (buf'.getD k 0).testBit b = true ↔
          ((buf.getD k 0).testBit b = true ∨
            ∃ r, i ≤ r ∧ r < 8 ∧ l.testBit r = false ∧ k = o + 8 * r ∧
              m.testBit b = true) := by
  intro fuel
  induction fuel with
  | zero => intro i buf _ h; omega
  | succ n ih =>
    intro i buf hi hfuel hlen hb
    unfold draw_glyph_line_inv_loop
    by_cases h8 : i < 8
    · have hoff : (o + 8 * i + 8) % 256 = o + 8 * (i + 1) := by omega
      have hmod : (i + 1) % 256 = i + 1 := by omega
      rw [if_pos h8, hoff, hmod]
      by_cases hbit : l.testBit i = true
      · rw [if_neg (fun h => h ((and_mask_ne_zero i l).2 hbit))]
        obtain ⟨buf2, h2, hlen2, hb2, hbit2⟩ :=
          ih (i + 1) buf (by omega) (by omega) hlen hb
        refine ⟨buf2, by rw [Option.some_bind, h2], hlen2, hb2, ?_⟩
        intro k b
        rw [hbit2]
        constructor
        · rintro (h | ⟨r, hr1, hr2, hl, hk, hmb⟩)
          · exact Or.inl h
          · exact Or.inr ⟨r, by omega, hr2, hl, hk, hmb⟩
        · rintro (h | ⟨r, hr1, hr2, hl, hk, hmb⟩)
          · exact Or.inl h
          · by_cases hr : r = i
            · subst hr
              rw [hbit] at hl
              exact absurd hl (by decide)
            · exact Or.inr ⟨r, by omega, hr2, hl, hk, hmb⟩
      · have hfalse : l.testBit i = false := by simpa using hbit
        rw [if_pos (fun h => hbit ((and_mask_ne_zero i l).1 h))]
        obtain ⟨buf1, h1, hlen1, hb1, hbit1⟩ := orAt_spec buf (o + 8 * i) m (by omega) hm hb
        obtain ⟨buf2, h2, hlen2, hb2, hbit2⟩ :=
          ih (i + 1) buf1 (by omega) (by omega) (by omega) hb1
        refine ⟨buf2, by rw [h1, Option.some_bind, h2], hlen2, hb2, ?_⟩
        intro k b
        rw [hbit2, hbit1]
        constructor
        · rintro ((h | ⟨hk, hmb⟩) | ⟨r, hr1, hr2, hl, hk, hmb⟩)
          · exact Or.inl h
          · exact Or.inr ⟨i, le_refl _, h8, hfalse, hk, hmb⟩
          · exact Or.inr ⟨r, by omega, hr2, hl, hk, hmb⟩
        · rintro (h | ⟨r, hr1, hr2, hl, hk, hmb⟩)
          · exact Or.inl (Or.inl h)
          · by_cases hr : r = i
            · subst hr
              exact Or.inl (Or.inr ⟨hk, hmb⟩)
            · exact Or.inr ⟨r, by omega, hr2, hl, hk, hmb⟩
    · have hi8 : i = 8 := by omega
      refine ⟨buf, by rw [if_neg h8], hlen, hb, ?_⟩
      intro k b
      constructor
      · intro h; exact Or.inl h
      · rintro (h | ⟨r, hr1, hr2, _⟩)
        · exact h
        · omega

/-- Effect of drawing one font column byte `l` at pixel column `x < 64`, in either
mode: the bits of the rows that are drawn are added at byte `8 * r + (7 - x / 8)`, bit
`7 - x % 8`. -/
theorem draw_column_spec (inverse : Bool) (buf : List Nat) (l x : Nat) (hx : x < 64)
    (hlen : buf.length = 64) (hb : ∀ j, buf.getD j 0 < 256) :
    ∃ buf', (if inverse then draw_glyph_line_inv buf l x else draw_glyph_line buf l x)
        = some buf' ∧
      buf'.length = 64 ∧ (∀ j, buf'.getD j 0 < 256) ∧
      ∀ k b, (buf'.getD k 0).testBit b = true ↔
        ((buf.getD k 0).testBit b = true ∨
          ∃ r, lit inverse l r ∧ k = 8 * r + (7 - x / 8) ∧ b = 7 - x % 8) := by
  have hm : glyph_mask x < 256 := by
    rw [glyph_mask_eq]; exact two_pow_lt_256 _ (by omega)
  have hoff : glyph_offset x = (7 - x / 8) + 8 * 0 := by
    rw [glyph_offset_eq x hx]; rfl
  have hmask : ∀ b, (glyph_mask x).testBit b = true ↔ b = 7 - x % 8 := by
    intro b
    rw [glyph_mask_eq, Nat.testBit_two_pow]
    simp only [decide_eq_true_eq]
    exact eq_comm
  cases inverse with
  | false =>
    obtain ⟨buf', h, hlen', hb', hbit⟩ :=
      draw_glyph_line_loop_spec l (glyph_mask x) (7 - x / 8) hm (by omega) 8 0 buf
        (by omega) (by omega) hlen hb
    refine ⟨buf', ?_, hlen', hb', ?_⟩
    · simp only [Bool.false_eq_true, if_false]
      unfold draw_glyph_line
      rw [hoff]
      exact h
    · intro k b
      rw [hbit]
      simp only [lit, Bool.false_eq_true, if_false, hmask]
      constructor
      · rintro (h | ⟨r, _, hr, hl, hk, hbb⟩)
        · exact Or.inl h
        · exact Or.inr ⟨r, ⟨hr, hl⟩, by omega, hbb⟩
      · rintro (h | ⟨r, ⟨hr, hl⟩, hk, hbb⟩)
        · exact Or.inl h
        · exact Or.inr ⟨r, Nat.zero_le _, hr, hl, by omega, hbb⟩
  | true =>
    obtain ⟨buf', h, hlen', hb', hbit⟩ :=
      draw_glyph_line_inv_loop_spec l (glyph_mask x) (7 - x / 8) hm (by omega) 9 0 buf
        (by omega) (by omega) hlen hb
    refine ⟨buf', ?_, hlen', hb', ?_⟩
    · simp only [if_true]
      unfold draw_glyph_line_inv
      rw [hoff]
      exact h
    · intro k b
      rw [hbit]
      simp only [lit, if_true, hmask]
      constructor
      · rintro (h | ⟨r, _, hr, hl, hk, hbb⟩)
        · exact Or.inl h
        · exact Or.inr ⟨r, ⟨hr, hl⟩, by omega, hbb⟩
      · rintro (h | ⟨r, ⟨hr, hl⟩, hk, hbb⟩)
        · exact Or.inl h
        · exact Or.inr ⟨r, Nat.zero_le _, hr, hl, by omega, hbb⟩

/-- A pixel of the string buffer read as a bit of a byte. -/
theorem pixel_eq (buf : List Nat) (x i : Nat) (hx : x < 64) :
    pixel buf x i = (buf.getD (8 * i + (7 - x / 8)) 0).testBit (7 - x % 8) := by
  unfold pixel
  rw [glyph_offset_eq x hx, glyph_mask_eq, Nat.and_two_pow, Nat.add_comm (7 - x / 8)]
  have : 0 < 2 ^ (7 - x % 8) := Nat.two_pow_pos _
  cases h : (buf.getD (8 * i + (7 - x / 8)) 0).testBit (7 - x % 8)
  · simp
  · simp

/-- The column drawn after the font columns of a character: filled in inverse mode,
untouched in normal mode. -/
theorem spacer_spec (inverse : Bool) (buf : List Nat) (x : Nat) (hx : x < 64)
    (hlen : buf.length = 64) (hb : ∀ j, buf.getD j 0 < 256) :
    ∃ buf', (if inverse then draw_glyph_line_inv buf 0x0 x else some buf) = some buf' ∧
      buf'.length = 64 ∧ (∀ j, buf'.getD j 0 < 256) ∧
      ∀ k b, (buf'.getD k 0).testBit b = true ↔
        ((buf.getD k 0).testBit b = true ∨
          ∃ r, (inverse = true ∧ r < 8) ∧ k = 8 * r + (7 - x / 8) ∧ b = 7 - x % 8) := by
  cases inverse with
  | false =>
    refine ⟨buf, by simp, hlen, hb, ?_⟩
    intro k b
    simp
  | true =>
    obtain ⟨buf', h, hlen', hb', hbit⟩ := draw_column_spec true buf 0 x hx hlen hb
    refine ⟨buf', by simpa using h, hlen', hb', ?_⟩
    intro k b
    rw [hbit]
    simp [lit]

/-! ## The loops of `oled_draw_string` -/

theorem glyph_columns_spec (st : Oled) (inverse : Bool) (hw : st.m_font_width < 256) :
    ∀ (fuel j x index : Nat) (buf : List Nat), j ≤ st.m_font_width →
      st.m_font_width - j < fuel → x + (st.m_font_width - j) ≤ 64 → index < 65536 →
      buf.length = 64 → (∀ q, buf.getD q 0 < 256) →
      ∃ buf' idx', glyph_columns st inverse fuel buf j x index
          = some (buf', x + (st.m_font_width - j), idx') ∧
        buf'.length = 64 ∧ (∀ q, buf'.getD q 0 < 256) ∧
        ∀ k b, (buf'.getD k 0).testBit b = true ↔
          ((buf.getD k 0).testBit b = true ∨
            ∃ d r, d < st.m_font_width - j ∧
              lit inverse (pgm_read_byte st.m_font ((index + d) % 65536)) r ∧
              k = 8 * r + (7 - (x + d) / 8) ∧ b = 7 - (x + d) % 8) := by
  intro fuel
  induction fuel with
  | zero => intro j x index buf _ h; omega
  | succ n ih =>
    intro j x index buf hj hfuel hx hidx hlen hb
    unfold glyph_columns
    by_cases hlt : j < st.m_font_width
    · obtain ⟨buf1, h1, hlen1, hb1, hbit1⟩ :=
        draw_column_spec inverse buf (pgm_read_byte st.m_font index) x (by omega) hlen hb
      have hj' : (j + 1) % 256 = j + 1 := by omega
      have hx' : (x + 1) % 256 = x + 1 := by omega
      obtain ⟨buf2, idx2, h2, hlen2, hb2, hbit2⟩ :=
        ih (j + 1) (x + 1) ((index + 1) % 65536) buf1 (by omega) (by omega) (by omega)
          (by omega) hlen1 hb1
      have hxe : x + 1 + (st.m_font_width - (j + 1)) = x + (st.m_font_width - j) := by
        omega
      rw [hxe] at h2
      refine ⟨buf2, idx2, ?_, hlen2, hb2, ?_⟩
      · rw [if_pos hlt]
        simp only [h1, Option.some_bind, hj', hx', h2]
      · intro k b
        rw [hbit2, hbit1]
        have hE : ∀ d, ((index + 1) % 65536 + d) % 65536 = (index + (d + 1)) % 65536 := by
          intro d; omega
        have hX : ∀ d, x + 1 + d = x + (d + 1) := by intro d; omega
        simp only [hE, hX]
        constructor
        · rintro ((h | ⟨r, hl, hk, hbb⟩) | ⟨d, r, hd, hl, hk, hbb⟩)
          · exact Or.inl h
          · refine Or.inr ⟨0, r, by omega, ?_, hk, hbb⟩
            rw [Nat.add_zero, Nat.mod_eq_of_lt hidx]
            exact hl
          · exact Or.inr ⟨d + 1, r, by omega, hl, hk, hbb⟩
        · rintro (h | ⟨d, r, hd, hl, hk, hbb⟩)
          · exact Or.inl (Or.inl h)
          · cases d with
            | zero =>
              rw [Nat.add_zero, Nat.mod_eq_of_lt hidx] at hl
              exact Or.inl (Or.inr ⟨r, hl, hk, hbb⟩)
            | succ e => exact Or.inr ⟨e, r, by omega, hl, hk, hbb⟩
    · have hjw : st.m_font_width - j = 0 := by omega
      refine ⟨buf, index, ?_, hlen, hb, ?_⟩
      · rw [if_neg hlt, hjw, Nat.add_zero]
      · intro k b
        rw [hjw]
        constructor
        · intro h; exact Or.inl h
        · rintro (h | ⟨d, r, hd, _⟩)
          · exact h
          · omega

theorem string_loop_spec (st : Oled) (text : List Nat) (inverse : Bool)
    (hnz : ∀ m, m < text.length → text.getD m 0 ≠ 0)
    (hfit : text.length * (st.m_font_width + 1) ≤ 64) :
    ∀ (fuel i x : Nat) (buf : List Nat), x = i * (st.m_font_width + 1) →
      i ≤ text.length → text.length - i < fuel → buf.length = 64 →
      (∀ q, buf.getD q 0 < 256) →
      ∃ buf', string_loop st text inverse fuel buf i x = some buf' ∧
        buf'.length = 64 ∧ (∀ q, buf'.getD q 0 < 256) ∧
        ∀ k b, (buf'.getD k 0).testBit b = true ↔
          ((buf.getD k 0).testBit b = true ∨
            ∃ m d r, i ≤ m ∧ m < text.length ∧ d ≤ st.m_font_width ∧
              cell_lit st text inverse m d r ∧
              k = 8 * r + (7 - (m * (st.m_font_width + 1) + d) / 8) ∧
              b = 7 - (m * (st.m_font_width + 1) + d) % 8) := by
  intro fuel
  induction fuel with
  | zero => intro i x buf _ _ h; omega
  | succ f ih =>
    intro i x buf hx hi hfuel hlen hb
    subst hx
    unfold string_loop
    by_cases hlt : i < text.length
    · have hc := hnz i hlt
      have hmul : (i + 1) * (st.m_font_width + 1)
          = i * (st.m_font_width + 1) + (st.m_font_width + 1) := Nat.succ_mul _ _
      have hle : (i + 1) * (st.m_font_width + 1) ≤ text.length * (st.m_font_width + 1) :=
        Nat.mul_le_mul_right _ hlt
      have hn : text.length ≤ text.length * (st.m_font_width + 1) :=
        Nat.le_mul_of_pos_right _ (Nat.succ_pos _)
      obtain ⟨buf1, idx1, h1, hlen1, hb1, hbit1⟩ :=
        glyph_columns_spec st inverse (by omega) 257 0 (i * (st.m_font_width + 1))
          (((text.getD i 0 + 65536 - 32) * st.m_font_width + FONT_DATA_OFFSET) % 65536)
          buf (Nat.zero_le _) (by omega) (by omega) (Nat.mod_lt _ (by decide)) hlen hb
      obtain ⟨buf2, h2, hlen2, hb2, hbit2⟩ :=
        spacer_spec inverse buf1 (i * (st.m_font_width + 1) + st.m_font_width) (by omega)
          hlen1 hb1
      obtain ⟨buf3, h3, hlen3, hb3, hbit3⟩ :=
        ih (i + 1) ((i + 1) * (st.m_font_width + 1)) buf2 rfl (by omega) (by omega)
          hlen2 hb2
      have hi' : (i + 1) % 256 = i + 1 := by omega
      have hx' : (i * (st.m_font_width + 1) + st.m_font_width + 1) % 256
          = (i + 1) * (st.m_font_width + 1) := by omega
      simp only [Nat.sub_zero] at h1 hbit1
      refine ⟨buf3, ?_, hlen3, hb3, ?_⟩
      · rw [if_pos hc]
        simp only [h1, Option.some_bind, h2, hi', hx', h3]
      · intro k b
        rw [hbit3, hbit2, hbit1]
        constructor
        · rintro (((h | ⟨d, r, hd, hl, hk, hbb⟩) | ⟨r, hsp, hk, hbb⟩) |
            ⟨m, d, r, hm1, hm2, hd, hcl, hk, hbb⟩)
          · exact Or.inl h
          · refine Or.inr ⟨i, d, r, le_refl _, hlt, by omega, ?_, hk, hbb⟩
            unfold cell_lit
            rw [if_pos hd]
            exact hl
          · refine Or.inr ⟨i, st.m_font_width, r, le_refl _, hlt, le_refl _, ?_, hk, hbb⟩
            unfold cell_lit
            rw [if_neg (lt_irrefl _)]
            exact hsp
          · exact Or.inr ⟨m, d, r, by omega, hm2, hd, hcl, hk, hbb⟩
        · rintro (h | ⟨m, d, r, hm1, hm2, hd, hcl, hk, hbb⟩)
          · exact Or.inl (Or.inl (Or.inl h))
          · by_cases hmi : m = i
            · subst hmi
              by_cases hdw : d < st.m_font_width
              · unfold cell_lit at hcl
                rw [if_pos hdw] at hcl
                exact Or.inl (Or.inl (Or.inr ⟨d, r, hdw, hcl, hk, hbb⟩))
              · have hdeq : d = st.m_font_width := by omega
                subst hdeq
                unfold cell_lit at hcl
                rw [if_neg hdw] at hcl
                exact Or.inl (Or.inr ⟨r, hcl, hk, hbb⟩)
            · exact Or.inr ⟨m, d, r, by omega, hm2, hd, hcl, hk, hbb⟩
    · have hin : i = text.length := by omega
      have hz : text.getD i 0 = 0 := List.getD_eq_default _ _ (by omega)
      refine ⟨buf, ?_, hlen, hb, ?_⟩
      · rw [if_neg (by simpa using hz)]
      · intro k b
        constructor
        · intro h; exact Or.inl h
        · rintro (h | ⟨m, d, r, hm1, hm2, _⟩)
          · exact h
          · omega

theorem cell_div_mod (m d w : Nat) (hd : d ≤ w) :
    (m * (w + 1) + d) / (w + 1) = m ∧ (m * (w + 1) + d) % (w + 1) = d := by
  have h := (Nat.div_mod_unique (a := m * (w + 1) + d) (c := d) (d := m)
    (Nat.succ_pos w)).2 ⟨by rw [Nat.mul_comm (w + 1) m, Nat.add_comm], by omega⟩
  exact h

/-- Every pixel of the buffer `oled_draw_string` builds for a text that fits the 64 pixel
columns: pixel `(x, i)` is set exactly when `x` lies in a character cell and row `i` of
that cell column is drawn. -/
theorem string_buf_pixels (st : Oled) (text : List Nat) (inverse : Bool)
    (hnz : ∀ m, m < text.length → text.getD m 0 ≠ 0)
    (hfit : text.length * (st.m_font_width + 1) ≤ 64) :
    ∃ buf, oled_draw_string_buf st text inverse = some buf ∧ buf.length = 64 ∧
      (∀ q, buf.getD q 0 < 256) ∧
      ∀ x i, x < 64 → i < 8 →
        (pixel buf x i = true ↔
          x < text.length * (st.m_font_width + 1) ∧
            cell_lit st text inverse (x / (st.m_font_width + 1))
              (x % (st.m_font_width + 1)) i) := by
  have hn : text.length ≤ text.length * (st.m_font_width + 1) :=
    Nat.le_mul_of_pos_right _ (Nat.succ_pos _)
  obtain ⟨buf, h, hlen, hb, hbit⟩ :=
    string_loop_spec st text inverse hnz hfit 257 0 0 (List.replicate 64 0)
      (by simp) (Nat.zero_le _) (by omega) (by simp)
      (by intro j; rw [getD_replicate_zero]; decide)
  refine ⟨buf, h, hlen, hb, ?_⟩
  intro x i hx hi
  rw [pixel_eq buf x i hx, hbit, getD_replicate_zero]
  simp only [Nat.zero_testBit, Bool.false_eq_true, false_or]
  constructor
  · rintro ⟨m, d, r, _, hm, hd, hcl, hk, hbb⟩
    have hmul : (m + 1) * (st.m_font_width + 1)
        = m * (st.m_font_width + 1) + (st.m_font_width + 1) := Nat.succ_mul _ _
    have hle : (m + 1) * (st.m_font_width + 1) ≤ text.length * (st.m_font_width + 1) :=
      Nat.mul_le_mul_right _ hm
    have hxe : m * (st.m_font_width + 1) + d = x := by omega
    have hr : r = i := by omega
    obtain ⟨e1, e2⟩ := cell_div_mod m d st.m_font_width hd
    rw [hxe] at e1 e2
    rw [e1, e2, ← hr]
    exact ⟨by omega, hcl⟩
  · rintro ⟨hxn, hcl⟩
    have hm : x / (st.m_font_width + 1) < text.length :=
      Nat.div_lt_of_lt_mul (by rw [Nat.mul_comm]; exact hxn)
    have hd : x % (st.m_font_width + 1) < st.m_font_width + 1 :=
      Nat.mod_lt _ (Nat.succ_pos _)
    have hxe := Nat.div_add_mod' x (st.m_font_width + 1)
    refine ⟨x / (st.m_font_width + 1), x % (st.m_font_width + 1), i, Nat.zero_le _, hm,
      by omega, hcl, ?_, ?_⟩
    · rw [hxe]
    · rw [hxe]

/-! ## The coordinate mapping -/

/-- C1: the mapping `x ↦ (7 - (x >> 3), 1 << (7 - (x & 7)))` of `draw_glyph_line` and
`draw_glyph_line_inv` is a bijection from `0..63` onto `0..7 × {1, 2, 4, ..., 128}`:
the offset of a row below 64 is below 8 and its mask is a single-bit byte, two rows
below 64 with the same offset and mask are equal, the row is recovered as
`8 * (7 - offset) + (7 - log2 mask)`, and every pair of an offset below 8 and a
single-bit byte is the image of a row below 64. -/
theorem coordinate_mapping_bijective (x x' o k : Nat) (hx : x < 64) (hx' : x' < 64)
    (ho : o < 8) (hk : k < 8) :
    (glyph_offset x < 8 ∧ ∃ b, b < 8 ∧ glyph_mask x = 2 ^ b) ∧
    (glyph_offset x = glyph_offset x' → glyph_mask x = glyph_mask x' → x = x') ∧
    x = 8 * (7 - glyph_offset x) + (7 - Nat.log2 (glyph_mask x)) ∧
    ∃ y, y < 64 ∧ glyph_offset y = o ∧ glyph_mask y = 2 ^ k := by
  rw [glyph_offset_eq x hx, glyph_offset_eq x' hx', glyph_mask_eq, glyph_mask_eq]
  refine ⟨⟨by omega, 7 - x % 8, by omega, rfl⟩, ?_, ?_, ?_⟩
  · intro h1 h2
    have h3 : 7 - x % 8 = 7 - x' % 8 := Nat.pow_right_injective (le_refl 2) h2
    omega
  · rw [Nat.log2_two_pow]
    omega
  · refine ⟨8 * (7 - o) + (7 - k), by omega, ?_, ?_⟩
    · rw [glyph_offset_eq _ (by omega)]
      omega
    · rw [glyph_mask_eq]
      congr 1
      omega

theorem coordinate_mapping_bijective_witness :
    (glyph_offset 10 < 8 ∧ ∃ b, b < 8 ∧ glyph_mask 10 = 2 ^ b) ∧
    (glyph_offset 10 = glyph_offset 10 → glyph_mask 10 = glyph_mask 10 → 10 = 10) ∧
    10 = 8 * (7 - glyph_offset 10) + (7 - Nat.log2 (glyph_mask 10)) ∧
    ∃ y, y < 64 ∧ glyph_offset y = 3 ∧ glyph_mask y = 2 ^ 5 :=
  coordinate_mapping_bijective 10 10 3 5 (by decide) (by decide) (by decide) (by decide)

/-! ## `send_data` -/

theorem send_data_loop_eq (len : Nat) (data : List Nat) (st : Oled)
    (h : len ≤ data.length) :
    send_data_loop len data st
      = some { st with txBuffer := st.txBuffer ++ data.take len } := by
  induction len generalizing data st with
  | zero => simp [send_data_loop]
  | succ n ih =>
    cases data with
    | nil => simp at h
    | cons d ds =>
      have h' : n ≤ ds.length := by simpa using h
      rw [send_data_loop, ih ds (Wire_write st d) h']
      simp [Wire_write]

/-- The bytes `send_data` writes before the payload: the one-column clip `[p, p]` unless
`p` is the raw-mode value `0xFF`, then the data-mode marker. -/
theorem send_data_eq (st : Oled) (data : List Nat) (len : Nat) (h : len ≤ data.length) :
    send_data st data len
      = some { st with
          m_draw_pos := (st.m_draw_pos + 1) % 256
          txAddress := st.m_address
          txBuffer := []
          wire := st.wire ++
            (⟨st.m_address,
                (if st.m_draw_pos = 0xFF then []
                  else [0x80, 0x21, 0x80, st.m_draw_pos, 0x80, st.m_draw_pos])
                  ++ 0x40 :: data.take len⟩
              :: (if len = 8 then [] else [⟨st.m_address, [0x80, 0x22, 0x80, 0, 0x80, 7]⟩])) } := by
  unfold send_data
  simp only [send_data_loop_eq _ _ _ h]
  by_cases hp : st.m_draw_pos = 0xFF <;> by_cases hl : len = 8 <;>
    simp [hp, hl, Wire_beginTransmission, Wire_write,
      Wire_endTransmission, reset_segment, SSD1306_Command_Mode, SSD1306_Data_Mode]

/-- C4: for a payload of `len` bytes and entry column `p`, `send_data` writes one
transaction holding `0x80,0x21,0x80,p,0x80,p` (when `p` is not `0xFF`), then `0x40`, then
the `len` payload bytes in order; with `p = 0xFF` the transaction is `0x40` followed by
the payload, without clip command; `m_draw_pos` becomes `(p + 1) mod 256`. -/
theorem send_data_transaction (st : Oled) (data : List Nat) (len : Nat)
    (h : len ≤ data.length) :
    ∃ st' rest, send_data st data len = some st' ∧
      st'.m_draw_pos = (st.m_draw_pos + 1) % 256 ∧
      st'.wire = st.wire ++ (⟨st.m_address,
        (if st.m_draw_pos ≠ 0xFF
          then [0x80, 0x21, 0x80, st.m_draw_pos, 0x80, st.m_draw_pos] ++ [0x40]
          else [0x40]) ++ data.take len⟩ :: rest) ∧
      (∀ t ∈ rest, 0x40 ∉ t.bytes) := by
  refine ⟨_, if len = 8 then [] else [⟨st.m_address, [0x80, 0x22, 0x80, 0, 0x80, 7]⟩],
    send_data_eq st data len h, rfl, ?_, ?_⟩
  · by_cases hp : st.m_draw_pos = 0xFF <;> simp [hp]
  · intro t ht
    by_cases hl : len = 8 <;> simp [hl] at ht
    subst ht
    simp

theorem send_data_transaction_witness :
    ∃ st' rest, send_data (sample_state 5) [1, 2, 3] 3 = some st' ∧
      st'.m_draw_pos = ((sample_state 5).m_draw_pos + 1) % 256 ∧
      st'.wire = (sample_state 5).wire ++ (⟨(sample_state 5).m_address,
        (if (sample_state 5).m_draw_pos ≠ 0xFF
          then [0x80, 0x21, 0x80, (sample_state 5).m_draw_pos, 0x80,
            (sample_state 5).m_draw_pos] ++ [0x40]
          else [0x40]) ++ [1, 2, 3].take 3⟩ :: rest) ∧
      (∀ t ∈ rest, 0x40 ∉ t.bytes) :=
  send_data_transaction (sample_state 5) [1, 2, 3] 3 (by decide)

/-- C5: `send_data` issues the window reset of `reset_segment` after its data transaction
exactly when `len` is not 8: the transactions it appends are the data transaction alone
for `len = 8` and the data transaction followed by the one `reset_segment` transaction
otherwise; after `oled_set_y` to any column a burst of 8 bytes appends the data
transaction only. -/
theorem send_data_reset_iff (st : Oled) (data : List Nat) (len y : Nat)
    (h : len ≤ data.length) (h8 : 8 ≤ data.length) :
    (∃ st' d, send_data st data len = some st' ∧
      st'.wire = st.wire ++ d ::
        (if len = 8 then [] else [⟨st.m_address, [0x80, 0x22, 0x80, 0, 0x80, 7]⟩]) ∧
      d.bytes ≠ [0x80, 0x22, 0x80, 0, 0x80, 7] ∧
      (len ≠ 8 → st'.wire = (reset_segment { st with wire := st.wire ++ [d] }).wire)) ∧
    (∃ st8 d, send_data (oled_set_y st y) data 8 = some st8 ∧
      st8.wire = st.wire ++ [d] ∧ d.bytes ≠ [0x80, 0x22, 0x80, 0, 0x80, 7]) := by
  constructor
  · refine ⟨_, data_burst st.m_address st.m_draw_pos (data.take len),
      send_data_eq st data len h, rfl, ?_, ?_⟩
    · by_cases hp : st.m_draw_pos = 0xFF <;> simp [hp, data_burst]
    · intro hl
      simp [hl, reset_segment, Wire_beginTransmission, Wire_write, Wire_endTransmission,
        SSD1306_Command_Mode, data_burst]
  · refine ⟨_, data_burst st.m_address y (data.take 8),
      send_data_eq (oled_set_y st y) data 8 h8, ?_, ?_⟩
    · simp [oled_set_y, data_burst]
    · by_cases hp : y = 0xFF <;> simp [hp, data_burst]

theorem send_data_reset_iff_witness :
    (∃ st' d, send_data (sample_state 5) [1, 2, 3, 4, 5, 6, 7, 8] 3 = some st' ∧
      st'.wire = (sample_state 5).wire ++ d ::
        (if 3 = 8 then []
          else [⟨(sample_state 5).m_address, [0x80, 0x22, 0x80, 0, 0x80, 7]⟩]) ∧
      d.bytes ≠ [0x80, 0x22, 0x80, 0, 0x80, 7] ∧
      (3 ≠ 8 → st'.wire
        = (reset_segment
            { (sample_state 5) with wire := (sample_state 5).wire ++ [d] }).wire)) ∧
    (∃ st8 d, send_data (oled_set_y (sample_state 5) 9) [1, 2, 3, 4, 5, 6, 7, 8] 8
        = some st8 ∧
      st8.wire = (sample_state 5).wire ++ [d] ∧
      d.bytes ≠ [0x80, 0x22, 0x80, 0, 0x80, 7]) :=
  send_data_reset_iff (sample_state 5) [1, 2, 3, 4, 5, 6, 7, 8] 3 9 (by decide) (by decide)

/-- C6 (as stated, refuted): a burst of 3 bytes to column 5 is followed by a reset
transaction that holds the page-range command `0x22, 0, 7` only; neither the
column-address command byte `0x21` nor the end column `127` occurs after the data
transaction. -/
theorem reset_after_short_burst_has_no_column_range :
    ∃ st', send_data (sample_state 5) [1, 2, 3] 3 = some st' ∧
      st'.wire = [⟨0x3C, [0x80, 0x21, 0x80, 5, 0x80, 5, 0x40, 1, 2, 3]⟩,
                  ⟨0x3C, [0x80, 0x22, 0x80, 0, 0x80, 7]⟩] ∧
      ¬ ∃ t ∈ st'.wire.drop 1, 0x21 ∈ t.bytes ∨ 127 ∈ t.bytes := by
  refine ⟨_, send_data_eq (sample_state 5) [1, 2, 3] 3 (by decide), ?_, ?_⟩
  · decide
  · decide

/-- C6 (amended): whenever `send_data` is called with `len` different from 8, the
transaction that follows the data transaction is the one of `reset_segment`, which
restores the page range `[0, 7]` (command `0x22` with start 0 and end 7, each byte
after a `0x80` marker) and holds no column-address command `0x21`. -/
theorem send_data_reset_restores_page_range (st : Oled) (data : List Nat) (len : Nat)
    (h : len ≤ data.length) (hl : len ≠ 8) :
    ∃ st' d r, send_data st data len = some st' ∧
      st'.wire = st.wire ++ [d, r] ∧
      (reset_segment { st with wire := st.wire ++ [d] }).wire = st.wire ++ [d, r] ∧
      r.bytes = [SSD1306_Command_Mode, 0x22, SSD1306_Command_Mode, 0,
        SSD1306_Command_Mode, 7] ∧
      0x21 ∉ r.bytes := by
  refine ⟨_, data_burst st.m_address st.m_draw_pos (data.take len),
    ⟨st.m_address, [0x80, 0x22, 0x80, 0, 0x80, 7]⟩,
    send_data_eq st data len h, ?_, ?_, ?_, ?_⟩
  · simp [hl, data_burst]
  · simp [reset_segment, Wire_beginTransmission, Wire_write, Wire_endTransmission,
      SSD1306_Command_Mode]
  · simp [SSD1306_Command_Mode]
  · simp

theorem send_data_reset_restores_page_range_witness :
    ∃ st' d r, send_data (sample_state 5) [1, 2, 3] 3 = some st' ∧
      st'.wire = (sample_state 5).wire ++ [d, r] ∧
      (reset_segment { (sample_state 5) with wire := (sample_state 5).wire ++ [d] }).wire
        = (sample_state 5).wire ++ [d, r] ∧
      r.bytes = [SSD1306_Command_Mode, 0x22, SSD1306_Command_Mode, 0,
        SSD1306_Command_Mode, 7] ∧
      0x21 ∉ r.bytes :=
  send_data_reset_restores_page_range (sample_state 5) [1, 2, 3] 3 (by decide) (by decide)

/-! ## Rasterised text -/

theorem char_index_eq (c w j : Nat) (hc : 32 ≤ c) (hc2 : c < 256) (hw : w ≤ 63)
    (hj : j < w) :
    (((c + 65536 - 32) * w + FONT_DATA_OFFSET) % 65536 + j) % 65536
      = (c - 32) * w + 2 + j := by
  have hA : (c + 65536 - 32) * w = (c - 32) * w + 65536 * w := by
    rw [show c + 65536 - 32 = (c - 32) + 65536 by omega, Nat.add_mul]
  have hB : (c - 32) * w ≤ 223 * 63 := Nat.mul_le_mul (by omega) hw
  rw [hA]
  simp only [FONT_DATA_OFFSET]
  omega

/-- C7: rendering the one-character string `c` (`c >= 32`) in normal mode with a font of
width `w <= 63` round-trips the font: for every font column `j < w` and glyph row
`i < 7` the buffer bit at byte `8 * i + 7 - (j >> 3)`, mask `1 << (7 - (j & 7))`, is set
iff bit `i` of `font[(c - 32) * w + 2 + j]` is set, and every set bit of the 64-byte
buffer is one of these positions. -/
theorem single_glyph_roundtrip (st : Oled) (c : Nat) (hw : st.m_font_width ≤ 63)
    (hc : 32 ≤ c) (hc2 : c < 256) :
    ∃ buf, oled_draw_string_buf st [c] false = some buf ∧ buf.length = 64 ∧
      (∀ k, buf.getD k 0 < 256) ∧
      (∀ j i, j < st.m_font_width → i < 7 →
        ((1 <<< (7 - (j &&& 7))) &&& buf.getD (8 * i + 7 - (j >>> 3)) 0 ≠ 0 ↔
          (pgm_read_byte st.m_font ((c - 32) * st.m_font_width + 2 + j)).testBit i
            = true)) ∧
      (∀ k b, k < 64 → b < 8 → (buf.getD k 0).testBit b = true →
        ∃ j i, j < st.m_font_width ∧ i < 7 ∧ k = 8 * i + 7 - (j >>> 3) ∧
          b = 7 - (j &&& 7) ∧
          (pgm_read_byte st.m_font ((c - 32) * st.m_font_width + 2 + j)).testBit i
            = true) := by
  obtain ⟨buf, h, hlen, hb, hpix⟩ := string_buf_pixels st [c] false
    (by intro m hm
        have hm0 : m = 0 := by simpa using hm
        subst hm0
        simp only [List.getD_cons_zero]
        omega)
    (by simp only [List.length_singleton]; omega)
  simp only [List.length_singleton, Nat.one_mul] at hpix
  have hcell : ∀ x i, x < st.m_font_width + 1 →
      (cell_lit st [c] false (x / (st.m_font_width + 1)) (x % (st.m_font_width + 1)) i ↔
        x < st.m_font_width ∧ i < 7 ∧
          (pgm_read_byte st.m_font ((c - 32) * st.m_font_width + 2 + x)).testBit i
            = true) := by
    intro x i hx
    rw [Nat.div_eq_of_lt hx, Nat.mod_eq_of_lt hx]
    unfold cell_lit
    by_cases hxw : x < st.m_font_width
    · rw [if_pos hxw, List.getD_cons_zero, char_index_eq c _ x hc hc2 hw hxw]
      simp [lit, hxw]
    · rw [if_neg hxw]
      simp [hxw]
  refine ⟨buf, h, hlen, hb, ?_, ?_⟩
  · intro j i hj hi
    rw [and_mask_ne_zero, (shift_and_eq j).1, (shift_and_eq j).2.1,
      show 8 * i + 7 - j / 8 = 8 * i + (7 - j / 8) by omega,
      ← pixel_eq buf j i (by omega), hpix j i (by omega) (by omega),
      hcell j i (by omega)]
    constructor
    · rintro ⟨_, _, _, h3⟩
      exact h3
    · intro h3
      exact ⟨by omega, hj, hi, h3⟩
  · intro k b hk hbb hset
    have hx : 8 * (7 - k % 8) + (7 - b) < 64 := by omega
    have hp := pixel_eq buf (8 * (7 - k % 8) + (7 - b)) (k / 8) hx
    rw [show 8 * (k / 8) + (7 - (8 * (7 - k % 8) + (7 - b)) / 8) = k by omega,
      show 7 - (8 * (7 - k % 8) + (7 - b)) % 8 = b by omega, hset] at hp
    obtain ⟨hx1, hcl⟩ := (hpix _ _ hx (by omega)).1 hp
    obtain ⟨hx2, hi, hfont⟩ := (hcell _ _ hx1).1 hcl
    refine ⟨8 * (7 - k % 8) + (7 - b), k / 8, hx2, hi, ?_, ?_, hfont⟩
    · rw [(shift_and_eq _).1]
      omega
    · rw [(shift_and_eq _).2.1]
      omega

theorem single_glyph_roundtrip_witness :
    ∃ buf, oled_draw_string_buf (sample_state 0) [65] false = some buf ∧ buf.length = 64 ∧
      (∀ k, buf.getD k 0 < 256) ∧
      (∀ j i, j < (sample_state 0).m_font_width → i < 7 →
        ((1 <<< (7 - (j &&& 7))) &&& buf.getD (8 * i + 7 - (j >>> 3)) 0 ≠ 0 ↔
          (pgm_read_byte (sample_state 0).m_font
            ((65 - 32) * (sample_state 0).m_font_width + 2 + j)).testBit i = true)) ∧
      (∀ k b, k < 64 → b < 8 → (buf.getD k 0).testBit b = true →
        ∃ j i, j < (sample_state 0).m_font_width ∧ i < 7 ∧ k = 8 * i + 7 - (j >>> 3) ∧
          b = 7 - (j &&& 7) ∧
          (pgm_read_byte (sample_state 0).m_font
            ((65 - 32) * (sample_state 0).m_font_width + 2 + j)).testBit i = true) :=
  single_glyph_roundtrip (sample_state 0) 65 (by decide) (by decide) (by decide)

theorem cell_lit_inverse_iff (st : Oled) (text : List Nat) (m d i : Nat) (hi : i < 7) :
    cell_lit st text true m d i ↔ ¬ cell_lit st text false m d i := by
  unfold cell_lit
  by_cases hd : d < st.m_font_width
  · rw [if_pos hd, if_pos hd]
    simp only [lit, if_true, Bool.false_eq_true, if_false]
    constructor
    · rintro ⟨_, h⟩ ⟨_, h'⟩
      rw [h] at h'
      exact absurd h' (by decide)
    · intro h
      refine ⟨by omega, ?_⟩
      cases hb : (pgm_read_byte st.m_font _).testBit i
      · rfl
      · exact absurd ⟨hi, hb⟩ h
  · rw [if_neg hd, if_neg hd]
    simp
    omega

theorem cell_lit_underline (st : Oled) (text : List Nat) (m d : Nat)
    (hfont : ∀ k, st.m_font k < 128) :
    cell_lit st text true m d 7 ∧ ¬ cell_lit st text false m d 7 := by
  unfold cell_lit
  by_cases hd : d < st.m_font_width
  · rw [if_pos hd, if_pos hd]
    simp only [lit, if_true, Bool.false_eq_true, if_false]
    refine ⟨⟨by omega, ?_⟩, fun h => absurd h.1 (by omega)⟩
    apply Nat.testBit_lt_two_pow
    unfold pgm_read_byte
    have := hfont
      ((((text.getD m 0 + 65536 - 32) * st.m_font_width + FONT_DATA_OFFSET) % 65536 + d)
        % 65536)
    omega
  · rw [if_neg hd, if_neg hd]
    simp

/-- C8: for a font whose column bytes are below 128 and a text of `n` characters with
codes `>= 32` and `n * (w + 1) <= 64`, let `N` and `I` be the buffers built in normal
and in inverse mode.  For every pixel column `x < n * (w + 1)` and row `i < 7` the pixel
`(x, i)` is set in `I` iff it is clear in `N`, the pixel `(x, 7)` is set in `I`, and the
bytes 56..63 of `N` (the 8th row) are zero. -/
theorem inverse_complements_normal (st : Oled) (text : List Nat)
    (hfont : ∀ k, st.m_font k < 128) (htext : ∀ c ∈ text, 32 ≤ c)
    (hfit : text.length * (st.m_font_width + 1) ≤ 64) :
    ∃ N I, oled_draw_string_buf st text false = some N ∧
      oled_draw_string_buf st text true = some I ∧ N.length = 64 ∧ I.length = 64 ∧
      (∀ x i, x < text.length * (st.m_font_width + 1) → i < 7 →
        (pixel I x i = true ↔ pixel N x i = false)) ∧
      (∀ x, x < text.length * (st.m_font_width + 1) → pixel I x 7 = true) ∧
      (∀ k, 56 ≤ k → k < 64 → N.getD k 0 = 0) := by
  have hnz : ∀ m, m < text.length → text.getD m 0 ≠ 0 := by
    intro m hm
    rw [List.getD_eq_getElem text 0 hm]
    have := htext _ (List.getElem_mem hm)
    omega
  obtain ⟨N, hN, hlenN, hbN, hpixN⟩ := string_buf_pixels st text false hnz hfit
  obtain ⟨I, hI, hlenI, _, hpixI⟩ := string_buf_pixels st text true hnz hfit
  refine ⟨N, I, hN, hI, hlenN, hlenI, ?_, ?_, ?_⟩
  · intro x i hx hi
    rw [hpixI x i (by omega) (by omega), ← Bool.not_eq_true,
      hpixN x i (by omega) (by omega), cell_lit_inverse_iff st text _ _ i hi]
    constructor
    · rintro ⟨_, h⟩ ⟨_, h'⟩
      exact h h'
    · intro h
      exact ⟨hx, fun h' => h ⟨hx, h'⟩⟩
  · intro x hx
    rw [hpixI x 7 (by omega) (by omega)]
    exact ⟨hx, (cell_lit_underline st text _ _ hfont).1⟩
  · intro k hk1 hk2
    apply Nat.zero_of_testBit_eq_false
    intro b
    by_cases hb8 : b < 8
    · have hx : 8 * (7 - k % 8) + (7 - b) < 64 := by omega
      have hp := pixel_eq N (8 * (7 - k % 8) + (7 - b)) 7 hx
      rw [show 8 * 7 + (7 - (8 * (7 - k % 8) + (7 - b)) / 8) = k by omega,
        show 7 - (8 * (7 - k % 8) + (7 - b)) % 8 = b by omega] at hp
      rw [← hp, ← Bool.not_eq_true, hpixN _ 7 hx (by omega)]
      rintro ⟨_, h⟩
      exact (cell_lit_underline st text _ _ hfont).2 h
    · apply Nat.testBit_lt_two_pow
      calc N.getD k 0 < 2 ^ 8 := hbN k
        _ ≤ 2 ^ b := Nat.pow_le_pow_right (by decide) (by omega)

theorem inverse_complements_normal_witness :
    ∃ N I, oled_draw_string_buf (sample_state 0) [72, 105] false = some N ∧
      oled_draw_string_buf (sample_state 0) [72, 105] true = some I ∧
      N.length = 64 ∧ I.length = 64 ∧
      (∀ x i, x < [72, 105].length * ((sample_state 0).m_font_width + 1) → i < 7 →
        (pixel I x i = true ↔ pixel N x i = false)) ∧
      (∀ x, x < [72, 105].length * ((sample_state 0).m_font_width + 1) →
        pixel I x 7 = true) ∧
      (∀ k, 56 ≤ k → k < 64 → N.getD k 0 = 0) :=
  inverse_complements_normal (sample_state 0) [72, 105]
    (by intro k; exact Nat.mod_lt _ (by decide)) (by decide) (by decide)

/-! ## Streaming the string buffer -/

theorem stream_loop_spec (buf : List Nat) (hlen : buf.length = 64) :
    ∀ (fuel k : Nat) (st : Oled), k ≤ 7 → 7 - k < fuel → st.m_draw_pos < 256 →
      ∃ st', stream_loop buf fuel st (8 * k) = some st' ∧
        st'.m_address = st.m_address ∧
        st'.m_draw_pos = (st.m_draw_pos + (7 - k)) % 256 ∧
        st'.wire = st.wire ++ (List.range (7 - k)).map (fun q =>
          data_burst st.m_address ((st.m_draw_pos + q) % 256)
            ((buf.drop (8 * (k + q))).take 8)) := by
  intro fuel
  induction fuel with
  | zero => intro k st _ h; omega
  | succ n ih =>
    intro k st hk hfuel hp
    unfold stream_loop
    by_cases h7 : k < 7
    · have hi : (8 * k + 8) % 256 = 8 * (k + 1) := by omega
      obtain ⟨st1, hst1, hp1, ha1, hw1⟩ : ∃ st1,
          send_data st (buf.drop (8 * k)) 8 = some st1 ∧
          st1.m_draw_pos = (st.m_draw_pos + 1) % 256 ∧ st1.m_address = st.m_address ∧
          st1.wire = st.wire ++
            [data_burst st.m_address st.m_draw_pos ((buf.drop (8 * k)).take 8)] :=
        ⟨_, send_data_eq st (buf.drop (8 * k)) 8 (by rw [List.length_drop]; omega),
          rfl, rfl, by simp [data_burst]⟩
      rw [if_pos (by omega), hst1, Option.some_bind, hi]
      obtain ⟨st', h, ha, hpos, hwire⟩ := ih (k + 1) st1 (by omega) (by omega)
        (by rw [hp1]; exact Nat.mod_lt _ (by decide))
      refine ⟨st', h, by rw [ha, ha1], ?_, ?_⟩
      · rw [hpos, hp1]
        omega
      · rw [hwire, hw1, ha1, hp1]
        have hr : 7 - k = (7 - (k + 1)) + 1 := by omega
        have hE : ∀ q, ((st.m_draw_pos + 1) % 256 + q) % 256
            = (st.m_draw_pos + (q + 1)) % 256 := by intro q; omega
        have hK : ∀ q, k + 1 + q = k + (q + 1) := by intro q; omega
        rw [hr, List.range_succ_eq_map, List.map_cons, List.map_map]
        simp only [List.append_assoc, List.singleton_append, hE, hK,
          Nat.add_zero, Nat.mod_eq_of_lt hp]
        rfl
    · have hk7 : k = 7 := by omega
      subst hk7
      refine ⟨st, by rw [if_neg (by omega)], rfl, ?_, ?_⟩
      · simp [Nat.mod_eq_of_lt hp]
      · simp

/-- The bus traffic of `oled_draw_string` for any buffer the rasteriser returns: seven
bursts of 8 bytes, and an eighth in inverse mode, to the columns `p`, `p + 1`, ...
(modulo 256; the value `0xFF` selects raw mode). -/
theorem draw_string_wire (st : Oled) (text : List Nat) (inverse : Bool) (buf : List Nat)
    (hbuf : oled_draw_string_buf st text inverse = some buf) (hlen : buf.length = 64)
    (hp : st.m_draw_pos < 256) :
    ∃ st', oled_draw_string st text inverse = some st' ∧
      st'.m_draw_pos = (st.m_draw_pos + (if inverse then 8 else 7)) % 256 ∧
      st'.wire = st.wire ++ (List.range (if inverse then 8 else 7)).map (fun q =>
        data_burst st.m_address ((st.m_draw_pos + q) % 256)
          ((buf.drop (8 * q)).take 8)) := by
  obtain ⟨st1, h1, ha1, hpos1, hwire1⟩ :=
    stream_loop_spec buf hlen 8 0 st (by omega) (by omega) hp
  simp only [Nat.mul_zero, Nat.sub_zero, Nat.zero_add] at h1 hpos1 hwire1
  unfold oled_draw_string
  rw [hbuf, Option.some_bind, h1, Option.some_bind]
  cases inverse with
  | false =>
    refine ⟨st1, by simp, by simpa using hpos1, by simpa using hwire1⟩
  | true =>
    refine ⟨_, by
      simp only [if_true]
      exact send_data_eq st1 (buf.drop 56) 8 (by rw [List.length_drop]; omega), ?_, ?_⟩
    · simp only [if_true, hpos1]
      omega
    · have hr : List.range 8 = List.range 7 ++ [7] := by decide
      simp only [if_true]
      rw [hr, List.map_append, ← List.append_assoc, ← hwire1]
      simp [data_burst, ha1, hpos1]

/-- C9 (as stated, refuted): entered with `m_draw_pos = 250` (which is not `0xFF`),
`oled_draw_string` in normal mode sends its sixth burst while `m_draw_pos` is `0xFF`:
that transaction carries no clip command, so it is not addressed to column `p + 5`, the
seventh burst goes to column 0, and `m_draw_pos` ends at 1. -/
theorem draw_string_from_column_250 :
    (oled_draw_string (sample_state 250) [65] false).map
        (fun st => (st.wire.map (fun t => t.bytes), st.m_draw_pos))
      = some ([[0x80, 0x21, 0x80, 250, 0x80, 250, 0x40, 0, 0, 0, 0, 0, 0, 0, 0x40],
               [0x80, 0x21, 0x80, 251, 0x80, 251, 0x40, 0, 0, 0, 0, 0, 0, 0, 0],
               [0x80, 0x21, 0x80, 252, 0x80, 252, 0x40, 0, 0, 0, 0, 0, 0, 0, 0xC0],
               [0x80, 0x21, 0x80, 253, 0x80, 253, 0x40, 0, 0, 0, 0, 0, 0, 0, 0],
               [0x80, 0x21, 0x80, 254, 0x80, 254, 0x40, 0, 0, 0, 0, 0, 0, 0, 0],
               [0x40, 0, 0, 0, 0, 0, 0, 0, 0],
               [0x80, 0x21, 0x80, 0, 0x80, 0, 0x40, 0, 0, 0, 0, 0, 0, 0, 0xC0]], 1) := by
  decide

/-- C9 (amended): for a text that fits the 64-pixel buffer and an entry column `p` with
`p + 7 <= 255` in normal mode, `p + 8 <= 255` in inverse mode (so every display column
`0..127`), `oled_draw_string` streams the rasterised buffer as consecutive 8-byte bursts
in buffer order, burst `k` clipped to column `p + k` and carrying the buffer bytes
`8 k .. 8 k + 7`: seven bursts in normal mode and eight in inverse mode, and
`m_draw_pos` ends at `p` plus that number. -/
theorem draw_string_streams_columns (st : Oled) (text : List Nat) (inverse : Bool)
    (hnz : ∀ c ∈ text, c ≠ 0) (hfit : text.length * (st.m_font_width + 1) ≤ 64)
    (hp : st.m_draw_pos + (if inverse then 8 else 7) ≤ 255) :
    ∃ buf st', oled_draw_string_buf st text inverse = some buf ∧ buf.length = 64 ∧
      oled_draw_string st text inverse = some st' ∧
      st'.m_draw_pos = st.m_draw_pos + (if inverse then 8 else 7) ∧
      st'.wire = st.wire ++ (List.range (if inverse then 8 else 7)).map (fun k =>
        ⟨st.m_address,
          [0x80, 0x21, 0x80, st.m_draw_pos + k, 0x80, st.m_draw_pos + k, 0x40]
            ++ (buf.drop (8 * k)).take 8⟩) := by
  have hnz' : ∀ m, m < text.length → text.getD m 0 ≠ 0 := by
    intro m hm
    rw [List.getD_eq_getElem text 0 hm]
    exact hnz _ (List.getElem_mem hm)
  obtain ⟨buf, hbuf, hlen, _, _⟩ := string_buf_pixels st text inverse hnz' hfit
  have hnb : (if inverse = true then 8 else 7) ≤ 8 := by split <;> omega
  obtain ⟨st', h, hpos, hwire⟩ := draw_string_wire st text inverse buf hbuf hlen (by omega)
  refine ⟨buf, st', hbuf, hlen, h, ?_, ?_⟩
  · rw [hpos]
    omega
  · rw [hwire]
    congr 1
    apply List.map_congr_left
    intro q hq
    have hq' := List.mem_range.1 hq
    have hmod : (st.m_draw_pos + q) % 256 = st.m_draw_pos + q := by omega
    have hne : ¬ (st.m_draw_pos + q = 255) := by omega
    simp [data_burst, hmod, hne]

theorem draw_string_streams_columns_witness :
    ∃ buf st', oled_draw_string_buf (sample_state 5) [72, 105] true = some buf ∧
      buf.length = 64 ∧
      oled_draw_string (sample_state 5) [72, 105] true = some st' ∧
      st'.m_draw_pos = (sample_state 5).m_draw_pos + (if true then 8 else 7) ∧
      st'.wire = (sample_state 5).wire ++
        (List.range (if true then 8 else 7)).map (fun k =>
          ⟨(sample_state 5).m_address,
            [0x80, 0x21, 0x80, (sample_state 5).m_draw_pos + k, 0x80,
              (sample_state 5).m_draw_pos + k, 0x40]
              ++ (buf.drop (8 * k)).take 8⟩) :=
  draw_string_streams_columns (sample_state 5) [72, 105] true (by decide) (by decide)
    (by decide)

/-- C10 (as stated, refuted): drawing the string `"A"` from column 0 in normal mode emits
seven transactions, each a clip followed by a full burst of 8 payload bytes; the last
burst is not shorter and no window-reset transaction is among them. -/
theorem draw_string_emits_no_reset :
    (oled_draw_string (sample_state 0) [65] false).map
        (fun st => st.wire.map (fun t => t.bytes))
      = some [[0x80, 0x21, 0x80, 0, 0x80, 0, 0x40, 0, 0, 0, 0, 0, 0, 0, 0x40],
              [0x80, 0x21, 0x80, 1, 0x80, 1, 0x40, 0, 0, 0, 0, 0, 0, 0, 0],
              [0x80, 0x21, 0x80, 2, 0x80, 2, 0x40, 0, 0, 0, 0, 0, 0, 0, 0xC0],
              [0x80, 0x21, 0x80, 3, 0x80, 3, 0x40, 0, 0, 0, 0, 0, 0, 0, 0],
              [0x80, 0x21, 0x80, 4, 0x80, 4, 0x40, 0, 0, 0, 0, 0, 0, 0, 0],
              [0x80, 0x21, 0x80, 5, 0x80, 5, 0x40, 0, 0, 0, 0, 0, 0, 0, 0],
              [0x80, 0x21, 0x80, 6, 0x80, 6, 0x40, 0, 0, 0, 0, 0, 0, 0, 0xC0]] ∧
    (oled_draw_string (sample_state 0) [65] false).map
        (fun st => st.wire.any (fun t => t.bytes == [0x80, 0x22, 0x80, 0, 0x80, 7]))
      = some false := by
  constructor <;> decide

/-- C10 (amended): string drawing never resets the addressing window.  For every text
that fits the buffer, both values of `inverse` and every entry column, each transaction
`oled_draw_string` emits, the final one included, is a data transaction with exactly 8
payload bytes after the `0x40` marker, and none is the transaction of `reset_segment`. -/
theorem draw_string_full_bursts_only (st : Oled) (text : List Nat) (inverse : Bool)
    (hnz : ∀ c ∈ text, c ≠ 0) (hfit : text.length * (st.m_font_width + 1) ≤ 64)
    (hp : st.m_draw_pos < 256) :
    ∃ st' emitted, oled_draw_string st text inverse = some st' ∧
      st'.wire = st.wire ++ emitted ∧
      emitted.length = (if inverse then 8 else 7) ∧
      ∀ t ∈ emitted,
        (∃ c payload, t.bytes
            = (if c = 0xFF then [] else [0x80, 0x21, 0x80, c, 0x80, c]) ++ 0x40 :: payload ∧
          payload.length = 8) ∧
        t.bytes ≠ [0x80, 0x22, 0x80, 0, 0x80, 7] ∧
        t ≠ ⟨st.m_address, [0x80, 0x22, 0x80, 0, 0x80, 7]⟩ := by
  have hnz' : ∀ m, m < text.length → text.getD m 0 ≠ 0 := by
    intro m hm
    rw [List.getD_eq_getElem text 0 hm]
    exact hnz _ (List.getElem_mem hm)
  obtain ⟨buf, hbuf, hlen, _, _⟩ := string_buf_pixels st text inverse hnz' hfit
  obtain ⟨st', h, _, hwire⟩ := draw_string_wire st text inverse buf hbuf hlen hp
  refine ⟨st', _, h, hwire, by simp, ?_⟩
  intro t ht
  obtain ⟨q, hq, rfl⟩ := List.mem_map.1 ht
  have hq' : q < 8 := by
    have := List.mem_range.1 hq
    split at this <;> omega
  have hpl : ((buf.drop (8 * q)).take 8).length = 8 := by
    rw [List.length_take, List.length_drop]
    omega
  have hbytes : (data_burst st.m_address ((st.m_draw_pos + q) % 256)
      ((buf.drop (8 * q)).take 8)).bytes ≠ [0x80, 0x22, 0x80, 0, 0x80, 7] := by
    intro he
    have hl := congrArg List.length he
    unfold data_burst at hl
    simp only [List.length_append, List.length_cons, hpl] at hl
    split at hl <;> simp at hl
  refine ⟨⟨(st.m_draw_pos + q) % 256, (buf.drop (8 * q)).take 8, rfl, hpl⟩, hbytes, ?_⟩
  · intro he
    exact hbytes (congrArg Txn.bytes he)

theorem draw_string_full_bursts_only_witness :
    ∃ st' emitted, oled_draw_string (sample_state 5) [72, 105] true = some st' ∧
      st'.wire = (sample_state 5).wire ++ emitted ∧
      emitted.length = (if true then 8 else 7) ∧
      ∀ t ∈ emitted,
        (∃ c payload, t.bytes
            = (if c = 0xFF then [] else [0x80, 0x21, 0x80, c, 0x80, c]) ++ 0x40 :: payload ∧
          payload.length = 8) ∧
        t.bytes ≠ [0x80, 0x22, 0x80, 0, 0x80, 7] ∧
        t ≠ ⟨(sample_state 5).m_address, [0x80, 0x22, 0x80, 0, 0x80, 7]⟩ :=
  draw_string_full_bursts_only (sample_state 5) [72, 105] true (by decide) (by decide)
    (by decide)

/-! ## Brightness and inverse video -/

theorem send_command_eq (st : Oled) (command : Nat) :
    send_command st command
      = { st with
          txAddress := st.m_address
          txBuffer := []
          wire := st.wire ++ [⟨st.m_address, [0x80, command]⟩] } := by
  simp [send_command, Wire_beginTransmission, Wire_write, Wire_endTransmission,
    SSD1306_Command_Mode]

/-- C18: `oled_set_inverse` and `oled_set_brightness` pass commands through and leave
`m_draw_pos` unchanged: `oled_set_inverse b` appends the one transaction `[0x80, c]` with
`c = 0xA7` for `b = true` and `c = 0xA6` for `b = false`; `oled_set_brightness v` appends
`[0x80, 0x81]` followed by `[0x80, v]`, each command byte after exactly one `0x80`. -/
theorem brightness_inverse_pass_through (st : Oled) (b : Bool) (v : Nat) :
    (oled_set_inverse st b).m_draw_pos = st.m_draw_pos ∧
    (oled_set_inverse st b).wire
      = st.wire ++ [⟨st.m_address, [0x80, if b then 0xA7 else 0xA6]⟩] ∧
    (oled_set_brightness st v).m_draw_pos = st.m_draw_pos ∧
    (oled_set_brightness st v).wire
      = st.wire ++ [⟨st.m_address, [0x80, 0x81]⟩, ⟨st.m_address, [0x80, v]⟩] := by
  refine ⟨?_, ?_, ?_, ?_⟩
  · simp [oled_set_inverse, send_command_eq]
  · cases b <;>
      simp [oled_set_inverse, send_command_eq, SSD1306_Inverse_Display_Cmd,
        SSD1306_Normal_Display_Cmd]
  · simp [oled_set_brightness, send_command_eq]
  · simp [oled_set_brightness, send_command_eq, SSD1306_Set_Brightness_Cmd]

/-! ## The two formulations of the coordinate mapping -/

/-- C19: for every row `x` in `0..63` the glyph path's byte `7 - (x >> 3)` and bit index
`7 - (x & 7)` equal the line path's `(63 - x) >> 3` and `(63 - x) & 7`, computed in 8-bit
arithmetic as in `oled_draw_h_line` and `oled_draw_v_line` (so the masks agree too); hence
the rows `x` and `63 - x` have complementary positions: `byte (63 - x) = 7 - byte x` and
`bit (63 - x) = 7 - bit x`. -/
theorem mapping_formulations_agree (x : Nat) (hx : x ≤ 63) :
    glyph_offset x = (sub8 63 x) >>> 3 ∧
    7 - (x &&& 7) = (sub8 63 x) &&& 7 ∧
    glyph_mask x = (1 <<< ((sub8 63 x) &&& 7)) % 256 ∧
    glyph_offset (63 - x) = 7 - glyph_offset x ∧
    7 - ((63 - x) &&& 7) = 7 - (7 - (x &&& 7)) := by
  have hs : sub8 63 x = 63 - x := by unfold sub8; omega
  have hbit : 7 - (x &&& 7) = (63 - x) &&& 7 := by
    rw [(shift_and_eq x).2.1, (shift_and_eq (63 - x)).2.1]
    omega
  rw [hs, glyph_offset_eq x (by omega), glyph_offset_eq (63 - x) (by omega),
    (shift_and_eq (63 - x)).1]
  refine ⟨by omega, hbit, ?_, by omega, ?_⟩
  · unfold glyph_mask
    rw [hbit]
  · rw [(shift_and_eq x).2.1, (shift_and_eq (63 - x)).2.1]
    omega

theorem mapping_formulations_agree_witness :
    glyph_offset 10 = (sub8 63 10) >>> 3 ∧
    7 - (10 &&& 7) = (sub8 63 10) &&& 7 ∧
    glyph_mask 10 = (1 <<< ((sub8 63 10) &&& 7)) % 256 ∧
    glyph_offset (63 - 10) = 7 - glyph_offset 10 ∧
    7 - ((63 - 10) &&& 7) = 7 - (7 - (10 &&& 7)) :=
  mapping_formulations_agree 10 (by decide)

/-! ## Clearing the display -/

theorem clear_loop_spec :
    ∀ (fuel j : Nat) (st : Oled), j ≤ 128 → 128 - j < fuel → st.m_draw_pos = j →
      ∃ st', clear_loop [0, 0, 0, 0, 0, 0, 0, 0] fuel st j = some st' ∧
        st'.m_address = st.m_address ∧ st'.m_draw_pos = 128 ∧
        st'.wire = st.wire ++ (List.range (128 - j)).map (fun q =>
          ⟨st.m_address,
            [0x80, 0x21, 0x80, j + q, 0x80, j + q, 0x40, 0, 0, 0, 0, 0, 0, 0, 0]⟩) := by
  intro fuel
  induction fuel with
  | zero => intro j st _ h; omega
  | succ n ih =>
    intro j st hj hfuel hp
    unfold clear_loop
    by_cases hlt : j < 128
    · have hne : ¬ (j = 255) := by omega
      obtain ⟨st1, hst1, hp1, ha1, hw1⟩ : ∃ st1,
          send_data st [0, 0, 0, 0, 0, 0, 0, 0] 8 = some st1 ∧
          st1.m_draw_pos = j + 1 ∧ st1.m_address = st.m_address ∧
          st1.wire = st.wire ++
            [⟨st.m_address,
              [0x80, 0x21, 0x80, j, 0x80, j, 0x40, 0, 0, 0, 0, 0, 0, 0, 0]⟩] :=
        ⟨_, send_data_eq st [0, 0, 0, 0, 0, 0, 0, 0] 8 (by decide),
          by simp only [hp]; omega, rfl, by simp [hp, hne]⟩
      have hj' : (j + 1) % 256 = j + 1 := by omega
      rw [if_pos hlt, hst1, Option.some_bind, hj']
      obtain ⟨st', h, ha, hpos, hwire⟩ := ih (j + 1) st1 (by omega) (by omega) hp1
      refine ⟨st', h, by rw [ha, ha1], hpos, ?_⟩
      rw [hwire, hw1, ha1]
      have hr : 128 - j = (128 - (j + 1)) + 1 := by omega
      have hK : ∀ q, j + 1 + q = j + (q + 1) := by intro q; omega
      rw [hr, List.range_succ_eq_map, List.map_cons, List.map_map]
      simp only [List.append_assoc, List.singleton_append, hK, Nat.add_zero]
      rfl
    · have hj128 : j = 128 := by omega
      subst hj128
      exact ⟨st, by rw [if_neg hlt], rfl, hp, by simp⟩

/-- The whole effect of `oled_clear_display` on the bus and on the current column. -/
theorem clear_display_eq (st : Oled) :
    ∃ st', oled_clear_display st = some st' ∧ st'.m_draw_pos = 128 ∧
      st'.wire = st.wire ++ [⟨st.m_address, [0x80, 0xAE]⟩]
        ++ (List.range 128).map (fun j =>
          ⟨st.m_address,
            [0x80, 0x21, 0x80, j, 0x80, j, 0x40, 0, 0, 0, 0, 0, 0, 0, 0]⟩)
        ++ [⟨st.m_address, [0x80, 0xAF]⟩] := by
  obtain ⟨st1, h1, ha1, hp1, hw1⟩ :=
    clear_loop_spec 129 0 (send_command (oled_set_y st 0) SSD1306_Display_Off_Cmd)
      (by omega) (by omega) (by simp [send_command_eq, oled_set_y])
  refine ⟨send_command st1 SSD1306_Display_On_Cmd, ?_, ?_, ?_⟩
  · unfold oled_clear_display
    simp only [h1, Option.some_bind]
  · simp [send_command_eq, hp1]
  · simp only [Nat.sub_zero, Nat.zero_add] at hw1
    simp [send_command_eq, hw1, ha1, oled_set_y, SSD1306_Display_Off_Cmd,
      SSD1306_Display_On_Cmd]

/-- C13: from any state `oled_clear_display` emits exactly the display-off command
`0xAE`, then 128 data transactions of which the `j`-th (`j = 0..127`) programs the clip
`[j, j]` and carries eight `0x00` payload bytes, then the display-on command `0xAF`; no
transaction is the window reset of `reset_segment`, and each column `0..127` is addressed
by exactly one transaction. -/
theorem clear_display_trace (st : Oled) :
    ∃ st', oled_clear_display st = some st' ∧
      st'.wire = st.wire ++ [⟨st.m_address, [0x80, 0xAE]⟩]
        ++ (List.range 128).map (fun j =>
          ⟨st.m_address, [0x80, 0x21, 0x80, j, 0x80, j, 0x40] ++ List.replicate 8 0⟩)
        ++ [⟨st.m_address, [0x80, 0xAF]⟩] ∧
      (∀ t ∈ st'.wire.drop st.wire.length, t.bytes ≠ [0x80, 0x22, 0x80, 0, 0x80, 7]) ∧
      (∀ j, j < 128 → (st'.wire.drop st.wire.length).count
        ⟨st.m_address, [0x80, 0x21, 0x80, j, 0x80, j, 0x40] ++ List.replicate 8 0⟩ = 1) := by
  obtain ⟨st', h, _, hw⟩ := clear_display_eq st
  have hdrop : st'.wire.drop st.wire.length
      = [⟨st.m_address, [0x80, 0xAE]⟩]
        ++ (List.range 128).map (fun j =>
          ⟨st.m_address,
            [0x80, 0x21, 0x80, j, 0x80, j, 0x40, 0, 0, 0, 0, 0, 0, 0, 0]⟩)
        ++ [⟨st.m_address, [0x80, 0xAF]⟩] := by
    rw [hw, List.append_assoc, List.append_assoc, List.drop_left]
    simp
  refine ⟨st', h, by rw [hw]; rfl, ?_, ?_⟩
  · intro t ht
    rw [hdrop] at ht
    simp only [List.mem_append, List.mem_singleton, List.mem_map, List.mem_range] at ht
    rcases ht with (rfl | ⟨j, _, rfl⟩) | rfl <;> simp
  · intro j hj
    rw [hdrop, List.count_append, List.count_append]
    have hinj : Function.Injective (fun j : Nat =>
        (⟨st.m_address,
          [0x80, 0x21, 0x80, j, 0x80, j, 0x40, 0, 0, 0, 0, 0, 0, 0, 0]⟩ : Txn)) := by
      intro a b hab
      simpa using hab
    have hmid := List.count_map_of_injective (List.range 128) _ hinj j
    have hnodup : (List.range 128).count j = 1 :=
      List.count_eq_one_of_mem (List.nodup_range 128) (List.mem_range.2 hj)
    simp only [List.replicate, List.cons_append, List.nil_append] at *
    rw [hmid, hnodup]
    simp

/-! ## Vertical line -/

theorem v_line_bursts_full (a b n : Nat) (h : 8 ≤ n) :
    v_line_bursts a b n = ⟨a, 0x40 :: List.replicate 8 b⟩ :: v_line_bursts a b (n - 8) := by
  unfold v_line_bursts
  have hr : (n + 7) / 8 = (n - 8 + 7) / 8 + 1 := by omega
  have hm : n % 8 = (n - 8) % 8 := by omega
  have hK : ∀ k, n - 8 * (k + 1) = n - 8 - 8 * k := by intro k; omega
  have h0 : min 8 (n - 8 * 0) = 8 := by omega
  rw [hr, List.range_succ_eq_map, List.map_cons, List.map_map, h0, hm, List.cons_append]
  congr 2
  apply List.map_congr_left
  intro k _
  simp only [Function.comp, Nat.succ_eq_add_one, hK]

theorem v_line_bursts_short (a b n : Nat) (h0 : 0 < n) (h : n < 8) :
    v_line_bursts a b n
      = [⟨a, 0x40 :: List.replicate n b⟩, ⟨a, [0x80, 0x22, 0x80, 0, 0x80, 7]⟩] := by
  unfold v_line_bursts
  have hr : (n + 7) / 8 = 1 := by omega
  have hm : ¬ (n % 8 = 0) := by omega
  have hmin : min 8 (n - 8 * 0) = n := by omega
  have hr1 : List.range 1 = [0] := rfl
  rw [hr, if_neg hm, hr1]
  simp only [List.map_cons, List.map_nil, hmin, List.singleton_append]

theorem v_line_bursts_zero (a b : Nat) : v_line_bursts a b 0 = [] := by
  simp [v_line_bursts]

theorem v_line_loop_spec (b y2 : Nat) (hy2 : y2 < 256) :
    ∀ (fuel y1 : Nat) (st : Oled), y2 - y1 < fuel →
      ∃ st', v_line_loop (List.replicate 8 b) y2 fuel st y1 = some st' ∧
        st'.m_address = st.m_address ∧
        st'.wire = st.wire ++ v_line_bursts st.m_address b (y2 - y1) := by
  intro fuel
  induction fuel with
  | zero => intro y1 st h; omega
  | succ n ih =>
    intro y1 st hfuel
    unfold v_line_loop
    by_cases hlt : y1 < y2
    · have hsub : sub8 y2 y1 = y2 - y1 := by unfold sub8; omega
      rw [if_pos hlt]
      simp only [hsub]
      by_cases h8 : 8 ≤ y2 - y1
      · have hd : (if y2 - y1 > 8 then 8 else y2 - y1) = 8 := by split <;> omega
        obtain ⟨st1, hst1, ha1, hw1⟩ : ∃ st1,
            send_data { st with m_draw_pos := 0xFF } (List.replicate 8 b) 8 = some st1 ∧
            st1.m_address = st.m_address ∧
            st1.wire = st.wire ++ [⟨st.m_address, 0x40 :: List.replicate 8 b⟩] :=
          ⟨_, send_data_eq _ (List.replicate 8 b) 8 (by simp), rfl, by
            dsimp only
            rw [if_pos rfl, if_pos rfl, List.take_replicate]
            rfl⟩
        have hy : (y1 + 8) % 256 = y1 + 8 := by omega
        rw [hd, hst1, Option.some_bind, hy]
        obtain ⟨st', h, ha, hw⟩ := ih (y1 + 8) st1 (by omega)
        refine ⟨st', h, by rw [ha, ha1], ?_⟩
        rw [hw, hw1, ha1, v_line_bursts_full _ b (y2 - y1) h8,
          show y2 - (y1 + 8) = y2 - y1 - 8 by omega, List.append_assoc]
        rfl
      · have hd : (if y2 - y1 > 8 then 8 else y2 - y1) = y2 - y1 := by split <;> omega
        have hne : ¬ (y2 - y1 = 8) := by omega
        have hmin : min (y2 - y1) 8 = y2 - y1 := by omega
        obtain ⟨st1, hst1, ha1, hw1⟩ : ∃ st1,
            send_data { st with m_draw_pos := 0xFF } (List.replicate 8 b) (y2 - y1)
              = some st1 ∧
            st1.m_address = st.m_address ∧
            st1.wire = st.wire ++ [⟨st.m_address, 0x40 :: List.replicate (y2 - y1) b⟩,
              ⟨st.m_address, [0x80, 0x22, 0x80, 0, 0x80, 7]⟩] :=
          ⟨_, send_data_eq _ (List.replicate 8 b) (y2 - y1) (by simp; omega), rfl, by
            dsimp only
            rw [if_pos rfl, if_neg hne, List.take_replicate, hmin]
            rfl⟩
        have hy : (y1 + (y2 - y1)) % 256 = y2 := by omega
        rw [hd, hst1, Option.some_bind, hy]
        obtain ⟨st', h, ha, hw⟩ := ih y2 st1 (by omega)
        refine ⟨st', h, by rw [ha, ha1], ?_⟩
        rw [hw, hw1, ha1, v_line_bursts_short _ b (y2 - y1) (by omega) (by omega),
          Nat.sub_self, v_line_bursts_zero, List.append_nil]
    · have hz : y2 - y1 = 0 := by omega
      refine ⟨st, by rw [if_neg hlt], rfl, ?_⟩
      rw [hz, v_line_bursts_zero, List.append_nil]

/-- The state in which `oled_draw_v_line` enters its data loop: the full-screen clip and
the three seek commands have been sent. -/
theorem v_line_unfold (st : Oled) (y1 y2 x : Nat) :
    oled_draw_v_line st y1 y2 x
      = (v_line_loop (List.replicate 8 ((1 <<< (sub8 63 x &&& 7)) % 256)) y2 257
          (send_command (send_command (send_command
            (Wire_endTransmission
              (Wire_write (Wire_write (Wire_write (Wire_write (Wire_write (Wire_write
                (Wire_write (Wire_write (Wire_write (Wire_write (Wire_write (Wire_write
                  (Wire_beginTransmission st st.m_address)
                  SSD1306_Command_Mode) 0x21) SSD1306_Command_Mode) 0)
                  SSD1306_Command_Mode) 127) SSD1306_Command_Mode) 0x22)
                  SSD1306_Command_Mode) 0) SSD1306_Command_Mode) 7))
            ((0xB0 + (sub8 63 x >>> 3)) % 256))
            ((0x00 + (y1 &&& 0x0F)) % 256))
            ((0x10 + ((y1 >>> 4) &&& 0x0F)) % 256)) y1).bind
          (fun s => some (reset_segment { s with m_draw_pos := st.m_draw_pos })) :=
  rfl

/-- The whole effect of `oled_draw_v_line` on the bus and on the current column. -/
theorem v_line_eq (st : Oled) (y1 y2 x : Nat) (hy2 : y2 < 256) :
    ∃ st', oled_draw_v_line st y1 y2 x = some st' ∧ st'.m_draw_pos = st.m_draw_pos ∧
      st'.wire = st.wire ++
        [⟨st.m_address, [0x80, 0x21, 0x80, 0, 0x80, 127, 0x80, 0x22, 0x80, 0, 0x80, 7]⟩,
          ⟨st.m_address, [0x80, (0xB0 + (sub8 63 x >>> 3)) % 256]⟩,
          ⟨st.m_address, [0x80, (0x00 + (y1 &&& 0x0F)) % 256]⟩,
          ⟨st.m_address, [0x80, (0x10 + ((y1 >>> 4) &&& 0x0F)) % 256]⟩]
        ++ v_line_bursts st.m_address ((1 <<< (sub8 63 x &&& 7)) % 256) (y2 - y1)
        ++ [⟨st.m_address, [0x80, 0x22, 0x80, 0, 0x80, 7]⟩] := by
  rw [v_line_unfold]
  generalize hS : send_command _ _ = S
  have hSa : S.m_address = st.m_address := by
    rw [← hS]
    simp [send_command_eq, Wire_beginTransmission, Wire_write, Wire_endTransmission]
  have hSw : S.wire = st.wire ++
      [⟨st.m_address, [0x80, 0x21, 0x80, 0, 0x80, 127, 0x80, 0x22, 0x80, 0, 0x80, 7]⟩,
        ⟨st.m_address, [0x80, (0xB0 + (sub8 63 x >>> 3)) % 256]⟩,
        ⟨st.m_address, [0x80, (0x00 + (y1 &&& 0x0F)) % 256]⟩,
        ⟨st.m_address, [0x80, (0x10 + ((y1 >>> 4) &&& 0x0F)) % 256]⟩] := by
    rw [← hS]
    simp [send_command_eq, Wire_beginTransmission, Wire_write, Wire_endTransmission,
      SSD1306_Command_Mode]
  obtain ⟨st1, h1, ha1, hw1⟩ := v_line_loop_spec ((1 <<< (sub8 63 x &&& 7)) % 256) y2 hy2
    257 y1 S (by omega)
  rw [h1, Option.some_bind]
  refine ⟨_, rfl, ?_, ?_⟩
  · simp [reset_segment, Wire_beginTransmission, Wire_write, Wire_endTransmission]
  · simp [reset_segment, Wire_beginTransmission, Wire_write, Wire_endTransmission,
      SSD1306_Command_Mode, hw1, ha1, hSa, hSw]

theorem v_line_payload_total (n : Nat) :
    ((List.range ((n + 7) / 8)).map (fun k => min 8 (n - 8 * k))).sum = n := by
  induction n using Nat.strong_induction_on with
  | _ n ih =>
    by_cases h0 : n = 0
    · subst h0
      rfl
    · by_cases h8 : 8 ≤ n
      · have hr : (n + 7) / 8 = (n - 8 + 7) / 8 + 1 := by omega
        have hK : ∀ k, n - 8 * (k + 1) = n - 8 - 8 * k := by intro k; omega
        have hm : min 8 (n - 8 * 0) = 8 := by omega
        have hrec := ih (n - 8) (by omega)
        rw [hr, List.range_succ_eq_map, List.map_cons, List.map_map, List.sum_cons, hm]
        have hmap : List.map ((fun k => min 8 (n - 8 * k)) ∘ Nat.succ)
            (List.range ((n - 8 + 7) / 8))
            = List.map (fun k => min 8 (n - 8 - 8 * k)) (List.range ((n - 8 + 7) / 8)) := by
          apply List.map_congr_left
          intro k _
          simp only [Function.comp, Nat.succ_eq_add_one, hK]
        rw [hmap, hrec]
        omega
      · have hr : (n + 7) / 8 = 1 := by omega
        have hr1 : List.range 1 = [0] := rfl
        have hm : min 8 (n - 8 * 0) = n := by omega
        rw [hr, hr1, List.map_cons, List.map_nil, List.sum_cons, List.sum_nil, hm]
        rfl

/-- C11: for `y1 < y2` and `x <= 63`, `oled_draw_v_line` emits in order the transaction
that resets the clip to the full screen (`0x21, 0, 127` and `0x22, 0, 7`, each byte after
`0x80`), the seek commands `0xB0 + (7 - (x >> 3))`, `0x00 + (y1 & 0x0F)` and
`0x10 + (y1 >> 4)`, then `ceil ((y2 - y1) / 8)` raw-mode data bursts (the transaction is
`0x40` and the payload, without clip command), burst `k` carrying
`min 8 (y2 - y1 - 8 k) >= 1` bytes, all equal to `1 << (7 - (x & 7))`, in total `y2 - y1`
payload bytes; only window resets follow the bursts.  The function returns, so the loop
ends with `y1 = y2`. -/
theorem v_line_trace (st : Oled) (y1 y2 x : Nat) (h12 : y1 < y2) (hy2 : y2 < 256)
    (hx : x ≤ 63) :
    ∃ st' tail, oled_draw_v_line st y1 y2 x = some st' ∧
      st'.wire = st.wire ++
        [⟨st.m_address, [0x80, 0x21, 0x80, 0, 0x80, 127, 0x80, 0x22, 0x80, 0, 0x80, 7]⟩,
          ⟨st.m_address, [0x80, 0xB0 + (7 - (x >>> 3))]⟩,
          ⟨st.m_address, [0x80, 0x00 + (y1 &&& 0x0F)]⟩,
          ⟨st.m_address, [0x80, 0x10 + (y1 >>> 4)]⟩]
        ++ (List.range ((y2 - y1 + 7) / 8)).map (fun k =>
          ⟨st.m_address,
            0x40 :: List.replicate (min 8 (y2 - y1 - 8 * k)) (1 <<< (7 - (x &&& 7)))⟩)
        ++ tail ∧
      (∀ t ∈ tail, t.bytes = [0x80, 0x22, 0x80, 0, 0x80, 7]) ∧
      (∀ k, k < (y2 - y1 + 7) / 8 →
        1 ≤ min 8 (y2 - y1 - 8 * k) ∧ min 8 (y2 - y1 - 8 * k) ≤ 8) ∧
      ((List.range ((y2 - y1 + 7) / 8)).map (fun k => min 8 (y2 - y1 - 8 * k))).sum
        = y2 - y1 := by
  obtain ⟨st', h, _, hw⟩ := v_line_eq st y1 y2 x hy2
  have hs : sub8 63 x = 63 - x := by unfold sub8; omega
  have hpage : (0xB0 + (sub8 63 x >>> 3)) % 256 = 0xB0 + (7 - (x >>> 3)) := by
    rw [hs, (shift_and_eq (63 - x)).1, (shift_and_eq x).1]
    omega
  have hlow : (0x00 + (y1 &&& 0x0F)) % 256 = 0x00 + (y1 &&& 0x0F) := by
    have : y1 &&& 0x0F = y1 % 16 := Nat.and_pow_two_sub_one_eq_mod y1 4
    rw [this]
    omega
  have hhigh : (0x10 + ((y1 >>> 4) &&& 0x0F)) % 256 = 0x10 + (y1 >>> 4) := by
    have h1 : y1 >>> 4 = y1 / 16 := Nat.shiftRight_eq_div_pow y1 4
    have h2 : (y1 / 16) &&& 0x0F = (y1 / 16) % 16 := Nat.and_pow_two_sub_one_eq_mod _ 4
    rw [h1, h2]
    omega
  have hb : (1 <<< (sub8 63 x &&& 7)) % 256 = 1 <<< (7 - (x &&& 7)) := by
    rw [hs, (shift_and_eq (63 - x)).2.1, (shift_and_eq x).2.1, Nat.one_shiftLeft,
      Nat.one_shiftLeft, show (63 - x) % 8 = 7 - x % 8 by omega]
    exact Nat.mod_eq_of_lt (two_pow_lt_256 _ (by omega))
  refine ⟨st', (if (y2 - y1) % 8 = 0 then []
      else [⟨st.m_address, [0x80, 0x22, 0x80, 0, 0x80, 7]⟩])
      ++ [⟨st.m_address, [0x80, 0x22, 0x80, 0, 0x80, 7]⟩], h, ?_, ?_, ?_,
    v_line_payload_total (y2 - y1)⟩
  · rw [hw, hpage, hlow, hhigh, hb]
    unfold v_line_bursts
    simp only [List.append_assoc]
  · intro t ht
    split at ht
    · simp at ht
      rw [ht]
    · simp at ht
      rw [ht]
  · intro k hk
    omega

theorem v_line_trace_witness :
    (∃ st' tail, oled_draw_v_line (sample_state 9) 0 16 0 = some st' ∧
      st'.wire = (sample_state 9).wire ++
        [⟨(sample_state 9).m_address,
            [0x80, 0x21, 0x80, 0, 0x80, 127, 0x80, 0x22, 0x80, 0, 0x80, 7]⟩,
          ⟨(sample_state 9).m_address, [0x80, 0xB0 + (7 - (0 >>> 3))]⟩,
          ⟨(sample_state 9).m_address, [0x80, 0x00 + (0 &&& 0x0F)]⟩,
          ⟨(sample_state 9).m_address, [0x80, 0x10 + (0 >>> 4)]⟩]
        ++ (List.range ((16 - 0 + 7) / 8)).map (fun k =>
          ⟨(sample_state 9).m_address,
            0x40 :: List.replicate (min 8 (16 - 0 - 8 * k)) (1 <<< (7 - (0 &&& 7)))⟩)
        ++ tail ∧
      (∀ t ∈ tail, t.bytes = [0x80, 0x22, 0x80, 0, 0x80, 7]) ∧
      (∀ k, k < (16 - 0 + 7) / 8 →
        1 ≤ min 8 (16 - 0 - 8 * k) ∧ min 8 (16 - 0 - 8 * k) ≤ 8) ∧
      ((List.range ((16 - 0 + 7) / 8)).map (fun k => min 8 (16 - 0 - 8 * k))).sum
        = 16 - 0) ∧
    (oled_draw_v_line (sample_state 9) 0 16 0).map
        (fun st => (st.wire.map (fun t => t.bytes), st.m_draw_pos))
      = some ([[0x80, 0x21, 0x80, 0, 0x80, 127, 0x80, 0x22, 0x80, 0, 0x80, 7],
               [0x80, 0xB7], [0x80, 0x00], [0x80, 0x10],
               [0x40, 0x80, 0x80, 0x80, 0x80, 0x80, 0x80, 0x80, 0x80],
               [0x40, 0x80, 0x80, 0x80, 0x80, 0x80, 0x80, 0x80, 0x80],
               [0x80, 0x22, 0x80, 0, 0x80, 7]], 9) :=
  ⟨v_line_trace (sample_state 9) 0 16 0 (by decide) (by decide) (by decide), by decide⟩

/-- C12: for all arguments and every entry value of `m_draw_pos`, `oled_draw_v_line`
returns with `m_draw_pos` equal to its value on entry, and the last transaction it emits
is the window reset of `reset_segment`. -/
theorem v_line_restores_column (st : Oled) (y1 y2 x : Nat) (hy2 : y2 < 256) :
    ∃ st' pre, oled_draw_v_line st y1 y2 x = some st' ∧
      st'.m_draw_pos = st.m_draw_pos ∧
      st'.wire = pre ++ [⟨st.m_address, [0x80, 0x22, 0x80, 0, 0x80, 7]⟩] ∧
      st'.wire = (reset_segment { st with wire := pre }).wire ∧
      st'.wire.getLast? = some ⟨st.m_address, [0x80, 0x22, 0x80, 0, 0x80, 7]⟩ := by
  obtain ⟨st', h, hp, hw⟩ := v_line_eq st y1 y2 x hy2
  refine ⟨st', _, h, hp, hw, ?_, ?_⟩
  · rw [hw]
    simp [reset_segment, Wire_beginTransmission, Wire_write, Wire_endTransmission,
      SSD1306_Command_Mode]
  · rw [hw]
    exact List.getLast?_concat _

theorem v_line_restores_column_witness :
    ∃ st' pre, oled_draw_v_line (sample_state 0xFF) 20 3 200 = some st' ∧
      st'.m_draw_pos = (sample_state 0xFF).m_draw_pos ∧
      st'.wire = pre ++ [⟨(sample_state 0xFF).m_address, [0x80, 0x22, 0x80, 0, 0x80, 7]⟩] ∧
      st'.wire = (reset_segment { (sample_state 0xFF) with wire := pre }).wire ∧
      st'.wire.getLast?
        = some ⟨(sample_state 0xFF).m_address, [0x80, 0x22, 0x80, 0, 0x80, 7]⟩ :=
  v_line_restores_column (sample_state 0xFF) 20 3 200 (by decide)

/-! ## Horizontal line: what is sent -/

/-- For `x1 < x2 <= 64` the call of `send_data` in `oled_draw_h_line`: the buffer (or the
zero buffer when `color` is 0) from offset 0 with length `8 - x1 / 8`. -/
theorem h_line_send (st : Oled) (x1 x2 y color : Nat) (h12 : x1 < x2) (h2 : x2 ≤ 64) :
    ∃ buf, h_line_fill x2 257 (List.replicate 8 0) x1 = some buf ∧ buf.length = 8 ∧
      (∀ k, buf.getD k 0 ≠ 0 ↔ 7 - (x2 - 1) / 8 ≤ k ∧ k < 8 - x1 / 8) ∧
      oled_draw_h_line st x1 x2 y color
        = send_data { st with m_draw_pos := y }
            (if color ≠ 0 then buf else List.replicate 8 0) (8 - x1 / 8) := by
  obtain ⟨buf, hfill, hlen, _, hnz⟩ := h_line_buffer_nonzero x1 x2 h12 h2
  obtain ⟨hcnt, hfirst⟩ := interval_nonzero buf (7 - (x2 - 1) / 8) (8 - x1 / 8)
    (by omega) (by omega) (fun k _ => hnz k)
  have hfirst' := hfirst (by omega)
  have hscan : h_line_scan buf 9 0 255 0 = some (first_nonzero buf, count_nonzero buf) := by
    rw [h_line_scan_spec buf hlen 9 0 255 0 (by omega) (by omega) (by omega)]
    simp only [List.drop_zero, Nat.sub_zero, Nat.zero_add, true_and]
    rw [if_pos (by omega)]
  have hspan : h_line_span buf = some (0, 8 - x1 / 8) := by
    unfold h_line_span
    rw [hscan]
    simp only [Option.some_bind]
    have : (count_nonzero buf + first_nonzero buf) % 256 = 8 - x1 / 8 := by omega
    rw [this]
  refine ⟨buf, hfill, hlen, hnz, ?_⟩
  unfold oled_draw_h_line
  rw [hfill]
  simp only [Option.some_bind, hspan, List.drop_zero]
  by_cases hc : color = 0
  · simp [hc]
  · simp [hc]

/-- The whole effect of `oled_draw_h_line` for `x1 < x2 <= 64`. -/
theorem h_line_eq (st : Oled) (x1 x2 y color : Nat) (h12 : x1 < x2) (h2 : x2 ≤ 64) :
    ∃ buf st', h_line_fill x2 257 (List.replicate 8 0) x1 = some buf ∧ buf.length = 8 ∧
      (∀ k, buf.getD k 0 ≠ 0 ↔ 7 - (x2 - 1) / 8 ≤ k ∧ k < 8 - x1 / 8) ∧
      oled_draw_h_line st x1 x2 y color = some st' ∧
      st'.m_draw_pos = (y + 1) % 256 ∧
      st'.wire = st.wire ++
        (data_burst st.m_address y
            ((if color ≠ 0 then buf else List.replicate 8 0).take (8 - x1 / 8))
          :: (if 8 - x1 / 8 = 8 then []
              else [⟨st.m_address, [0x80, 0x22, 0x80, 0, 0x80, 7]⟩])) := by
  obtain ⟨buf, hfill, hlen, hnz, hsend⟩ := h_line_send st x1 x2 y color h12 h2
  have hle : 8 - x1 / 8 ≤ (if color ≠ 0 then buf else List.replicate 8 0).length := by
    split
    · omega
    · simp
  obtain ⟨st', hst', hp, hw⟩ : ∃ st',
      send_data { st with m_draw_pos := y }
        (if color ≠ 0 then buf else List.replicate 8 0) (8 - x1 / 8) = some st' ∧
      st'.m_draw_pos = (y + 1) % 256 ∧
      st'.wire = st.wire ++
        (data_burst st.m_address y
            ((if color ≠ 0 then buf else List.replicate 8 0).take (8 - x1 / 8))
          :: (if 8 - x1 / 8 = 8 then []
              else [⟨st.m_address, [0x80, 0x22, 0x80, 0, 0x80, 7]⟩])) :=
    ⟨_, send_data_eq _ _ _ hle, rfl, rfl⟩
  exact ⟨buf, st', hfill, hlen, hnz, by rw [hsend, hst'], hp, hw⟩

/-- C14 (as stated, refuted): with `y = 0xFF` the erasing call `oled_draw_h_line 0 8 y 0`
sends its burst of zero bytes in raw mode: the only transaction is `0x40` followed by the
payload, so no clip `[y, y]` is programmed. -/
theorem h_line_erase_at_column_255 :
    (oled_draw_h_line (sample_state 0) 0 8 0xFF 0).map
        (fun st => st.wire.map (fun t => t.bytes))
      = some [[0x40, 0, 0, 0, 0, 0, 0, 0, 0]] ∧
    (oled_draw_h_line (sample_state 0) 0 8 0xFF 0).map
        (fun st => st.wire.any (fun t => t.bytes.take 2 == [0x80, 0x21]))
      = some false := by
  constructor <;> decide

/-- C14 (amended): for `x1 < x2 <= 64` and every `y` other than the raw-mode value `0xFF`,
`oled_draw_h_line` with `color = 0` sends one data burst clipped to column `y` whose
payload is all zero and as long as the payload the same call sends with a non-zero
`color`; the bus traffic of the two calls differs in the payload bytes only, and both
leave the same `m_draw_pos`. -/
theorem h_line_erase_same_length (st : Oled) (x1 x2 y color : Nat) (h12 : x1 < x2)
    (h2 : x2 ≤ 64) (hy : y ≠ 0xFF) (hc : color ≠ 0) :
    ∃ s0 s1 payload rest, oled_draw_h_line st x1 x2 y 0 = some s0 ∧
      oled_draw_h_line st x1 x2 y color = some s1 ∧
      s0.wire = st.wire ++
        (⟨st.m_address, [0x80, 0x21, 0x80, y, 0x80, y, 0x40]
            ++ List.replicate payload.length 0⟩ :: rest) ∧
      s1.wire = st.wire ++
        (⟨st.m_address, [0x80, 0x21, 0x80, y, 0x80, y, 0x40] ++ payload⟩ :: rest) ∧
      payload.length = 8 - x1 / 8 ∧ 1 ≤ payload.length ∧ payload.length ≤ 8 ∧
      s0.m_draw_pos = s1.m_draw_pos := by
  obtain ⟨buf0, s0, hf0, _, _, h0, hp0, hw0⟩ := h_line_eq st x1 x2 y 0 h12 h2
  obtain ⟨buf1, s1, hf1, hlen1, _, h1, hp1, hw1⟩ := h_line_eq st x1 x2 y color h12 h2
  have hl : (buf1.take (8 - x1 / 8)).length = 8 - x1 / 8 := by
    rw [List.length_take]
    omega
  refine ⟨s0, s1, buf1.take (8 - x1 / 8),
    if 8 - x1 / 8 = 8 then [] else [⟨st.m_address, [0x80, 0x22, 0x80, 0, 0x80, 7]⟩],
    h0, h1, ?_, ?_, hl, by omega, by omega, by rw [hp0, hp1]⟩
  · have hmin : min (8 - x1 / 8) 8 = 8 - x1 / 8 := by omega
    have e0 : (if (0 : Nat) ≠ 0 then buf0 else List.replicate 8 0) = List.replicate 8 0 :=
      if_neg (by decide)
    rw [hw0, hl, e0, List.take_replicate, hmin]
    simp [data_burst, hy]
  · rw [hw1]
    simp [data_burst, hy, hc]

theorem h_line_erase_same_length_witness :
    ∃ s0 s1 payload rest, oled_draw_h_line (sample_state 0) 4 12 5 0 = some s0 ∧
      oled_draw_h_line (sample_state 0) 4 12 5 1 = some s1 ∧
      s0.wire = (sample_state 0).wire ++
        (⟨(sample_state 0).m_address, [0x80, 0x21, 0x80, 5, 0x80, 5, 0x40]
            ++ List.replicate payload.length 0⟩ :: rest) ∧
      s1.wire = (sample_state 0).wire ++
        (⟨(sample_state 0).m_address, [0x80, 0x21, 0x80, 5, 0x80, 5, 0x40] ++ payload⟩
          :: rest) ∧
      payload.length = 8 - 4 / 8 ∧ 1 ≤ payload.length ∧ payload.length ≤ 8 ∧
      s0.m_draw_pos = s1.m_draw_pos :=
  h_line_erase_same_length (sample_state 0) 4 12 5 1 (by decide) (by decide) (by decide)
    (by decide)

/-- C15: for `x1 < x2 <= 64` and a non-zero `color`, the burst `oled_draw_h_line` sends
is the part of the column buffer from byte 0 up to the last non-zero byte: its length
`L = 8 - x1 / 8` is between 1 and 8, byte `L - 1` is non-zero and every byte from index
`L` on is zero, so no set bit is left out.  For `oled_draw_h_line 0 64 5 on` the buffer
is eight `0xFF` bytes and the single transaction is the clip to column 5 followed by all
8 bytes, without window reset. -/
theorem h_line_sends_up_to_last_nonzero (st : Oled) (x1 x2 y color : Nat) (h12 : x1 < x2)
    (h2 : x2 ≤ 64) (hc : color ≠ 0) :
    (∃ buf st', h_line_fill x2 257 (List.replicate 8 0) x1 = some buf ∧ buf.length = 8 ∧
      1 ≤ 8 - x1 / 8 ∧ 8 - x1 / 8 ≤ 8 ∧
      buf.getD (8 - x1 / 8 - 1) 0 ≠ 0 ∧
      (∀ k, 8 - x1 / 8 ≤ k → buf.getD k 0 = 0) ∧
      oled_draw_h_line st x1 x2 y color = some st' ∧
      st'.wire = st.wire ++
        (⟨st.m_address,
            (if y = 0xFF then [] else [0x80, 0x21, 0x80, y, 0x80, y])
              ++ 0x40 :: buf.take (8 - x1 / 8)⟩
          :: (if 8 - x1 / 8 = 8 then []
              else [⟨st.m_address, [0x80, 0x22, 0x80, 0, 0x80, 7]⟩]))) ∧
    h_line_fill 64 257 (List.replicate 8 0) 0
      = some [0xFF, 0xFF, 0xFF, 0xFF, 0xFF, 0xFF, 0xFF, 0xFF] ∧
    (oled_draw_h_line (sample_state 0) 0 64 5 1).map
        (fun s => s.wire.map (fun t => t.bytes))
      = some [[0x80, 0x21, 0x80, 5, 0x80, 5, 0x40,
          0xFF, 0xFF, 0xFF, 0xFF, 0xFF, 0xFF, 0xFF, 0xFF]] := by
  refine ⟨?_, by decide, by decide⟩
  obtain ⟨buf, st', hfill, hlen, hnz, h, _, hw⟩ := h_line_eq st x1 x2 y color h12 h2
  refine ⟨buf, st', hfill, hlen, by omega, by omega, ?_, ?_, h, ?_⟩
  · rw [hnz]
    omega
  · intro k hk
    by_contra hne
    have := (hnz k).1 hne
    omega
  · rw [hw]
    simp [data_burst, hc]

theorem h_line_sends_up_to_last_nonzero_witness :
    (∃ buf st', h_line_fill 30 257 (List.replicate 8 0) 20 = some buf ∧ buf.length = 8 ∧
      1 ≤ 8 - 20 / 8 ∧ 8 - 20 / 8 ≤ 8 ∧
      buf.getD (8 - 20 / 8 - 1) 0 ≠ 0 ∧
      (∀ k, 8 - 20 / 8 ≤ k → buf.getD k 0 = 0) ∧
      oled_draw_h_line (sample_state 0) 20 30 5 1 = some st' ∧
      st'.wire = (sample_state 0).wire ++
        (⟨(sample_state 0).m_address,
            (if 5 = 0xFF then [] else [0x80, 0x21, 0x80, 5, 0x80, 5])
              ++ 0x40 :: buf.take (8 - 20 / 8)⟩
          :: (if 8 - 20 / 8 = 8 then []
              else [⟨(sample_state 0).m_address, [0x80, 0x22, 0x80, 0, 0x80, 7]⟩]))) ∧
    h_line_fill 64 257 (List.replicate 8 0) 0
      = some [0xFF, 0xFF, 0xFF, 0xFF, 0xFF, 0xFF, 0xFF, 0xFF] ∧
    (oled_draw_h_line (sample_state 0) 0 64 5 1).map
        (fun s => s.wire.map (fun t => t.bytes))
      = some [[0x80, 0x21, 0x80, 5, 0x80, 5, 0x40,
          0xFF, 0xFF, 0xFF, 0xFF, 0xFF, 0xFF, 0xFF, 0xFF]] :=
  h_line_sends_up_to_last_nonzero (sample_state 0) 20 30 5 1 (by decide) (by decide)
    (by decide)

/-! ## Horizontal line: the empty run -/

theorem send_data_loop_none :
    ∀ (len : Nat) (data : List Nat) (st : Oled), data.length < len →
      send_data_loop len data st = none := by
  intro len
  induction len with
  | zero => intro data st h; omega
  | succ n ih =>
    intro data st h
    cases data with
    | nil => rfl
    | cons d ds =>
      rw [send_data_loop]
      exact ih ds _ (by simpa using h)

theorem send_data_none (st : Oled) (data : List Nat) (len : Nat) (h : data.length < len) :
    send_data st data len = none := by
  unfold send_data
  simp only [send_data_loop_none _ _ _ h]

/-- C20: for an empty run `x1 >= x2` the column buffer of `oled_draw_h_line` stays all
zero, the scan keeps `s = 255` and `cnt = 0`, and `send_data` is called with start offset
0 and length `255 = (0 + 255) mod 256` on the 8-byte buffer: the indices `8..254` it
reads lie outside the buffer (the embedding returns `none`), and with any 247 bytes
`mem` that follow the buffer in memory the burst carries the 8 zero bytes and those 247
bytes and, since `255 != 8`, is followed by the window reset. -/
theorem h_line_empty_run (st : Oled) (x1 x2 y color : Nat) (mem : List Nat)
    (h : x2 ≤ x1) (hmem : mem.length = 247) :
    h_line_fill x2 257 (List.replicate 8 0) x1 = some (List.replicate 8 0) ∧
    h_line_scan (List.replicate 8 0) 9 0 255 0 = some (255, 0) ∧
    h_line_span (List.replicate 8 0) = some (0, (0 + 255) % 256) ∧
    oled_draw_h_line st x1 x2 y color
      = send_data { st with m_draw_pos := y } (List.replicate 8 0) 255 ∧
    oled_draw_h_line st x1 x2 y color = none ∧
    (∀ k, 8 ≤ k → k < 255 → (List.replicate 8 0)[k]? = none) ∧
    ∃ st', send_data { st with m_draw_pos := y } (List.replicate 8 0 ++ mem) 255
        = some st' ∧
      st'.wire = st.wire ++
        [⟨st.m_address,
            (if y = 0xFF then [] else [0x80, 0x21, 0x80, y, 0x80, y])
              ++ 0x40 :: (List.replicate 8 0 ++ mem)⟩,
          ⟨st.m_address, [0x80, 0x22, 0x80, 0, 0x80, 7]⟩] := by
  have hfill : h_line_fill x2 257 (List.replicate 8 0) x1 = some (List.replicate 8 0) := by
    show h_line_fill x2 (256 + 1) (List.replicate 8 0) x1 = _
    unfold h_line_fill
    rw [if_neg (by omega)]
  have hscan : h_line_scan (List.replicate 8 0) 9 0 255 0 = some (255, 0) := by decide
  have hspan : h_line_span (List.replicate 8 0) = some (0, (0 + 255) % 256) := by decide
  have hcall : oled_draw_h_line st x1 x2 y color
      = send_data { st with m_draw_pos := y } (List.replicate 8 0) 255 := by
    unfold oled_draw_h_line
    rw [hfill]
    simp only [Option.some_bind, hspan, List.drop_zero]
    by_cases hc : color = 0
    · simp [hc]
    · simp [hc]
  refine ⟨hfill, hscan, hspan, hcall, ?_, ?_, ?_⟩
  · rw [hcall]
    exact send_data_none _ _ _ (by simp)
  · intro k hk _
    exact List.getElem?_eq_none (by simpa using hk)
  · have hlen : 255 ≤ (List.replicate 8 0 ++ mem).length := by
      rw [List.length_append, List.length_replicate, hmem]
    have htake : (List.replicate 8 0 ++ mem).take 255 = List.replicate 8 0 ++ mem :=
      List.take_of_length_le (by rw [List.length_append, List.length_replicate, hmem])
    refine ⟨_, send_data_eq _ _ 255 hlen, ?_⟩
    dsimp only
    rw [htake, if_neg (show ¬ ((255 : Nat) = 8) by decide)]

theorem h_line_empty_run_witness :
    h_line_fill 7 257 (List.replicate 8 0) 7 = some (List.replicate 8 0) ∧
    h_line_scan (List.replicate 8 0) 9 0 255 0 = some (255, 0) ∧
    h_line_span (List.replicate 8 0) = some (0, (0 + 255) % 256) ∧
    oled_draw_h_line (sample_state 0) 7 7 5 1
      = send_data { (sample_state 0) with m_draw_pos := 5 } (List.replicate 8 0) 255 ∧
    oled_draw_h_line (sample_state 0) 7 7 5 1 = none ∧
    (∀ k, 8 ≤ k → k < 255 → (List.replicate 8 0)[k]? = none) ∧
    ∃ st', send_data { (sample_state 0) with m_draw_pos := 5 }
          (List.replicate 8 0 ++ List.replicate 247 0xAA) 255 = some st' ∧
      st'.wire = (sample_state 0).wire ++
        [⟨(sample_state 0).m_address,
            (if 5 = 0xFF then [] else [0x80, 0x21, 0x80, 5, 0x80, 5])
              ++ 0x40 :: (List.replicate 8 0 ++ List.replicate 247 0xAA)⟩,
          ⟨(sample_state 0).m_address, [0x80, 0x22, 0x80, 0, 0x80, 7]⟩] :=
  h_line_empty_run (sample_state 0) 7 7 5 1 (List.replicate 247 0xAA) (by decide)
    (List.length_replicate _ _)

/-! ## Burst lengths -/

theorem burst_payload_data_burst (a p : Nat) (payload : List Nat) :
    burst_payload (data_burst a p payload) = some payload := by
  by_cases hp : p = 0xFF
  · simp [burst_payload, data_burst, hp]
  · simp [burst_payload, data_burst, hp]

theorem bursts_in_range_append (l1 l2 : List Txn) :
    bursts_in_range (l1 ++ l2) ↔ bursts_in_range l1 ∧ bursts_in_range l2 := by
  unfold bursts_in_range
  constructor
  · intro h
    exact ⟨fun t ht => h t (List.mem_append.2 (Or.inl ht)),
      fun t ht => h t (List.mem_append.2 (Or.inr ht))⟩
  · rintro ⟨h1, h2⟩ t ht
    rcases List.mem_append.1 ht with h | h
    · exact h1 t h
    · exact h2 t h

theorem bursts_in_range_command (a : Nat) (bytes : List Nat)
    (h : burst_payload ⟨a, bytes⟩ = none) : bursts_in_range [⟨a, bytes⟩] := by
  intro t ht payload hpl
  rw [List.mem_singleton.1 ht, h] at hpl
  exact absurd hpl (by simp)

theorem bursts_in_range_data (a p : Nat) (payload : List Nat) (h1 : 1 ≤ payload.length)
    (h8 : payload.length ≤ 8) : bursts_in_range [data_burst a p payload] := by
  intro t ht pl hpl
  rw [List.mem_singleton.1 ht, burst_payload_data_burst] at hpl
  cases hpl
  exact ⟨h1, h8⟩

theorem bursts_in_range_map (f : Nat → Txn) (l : List Nat)
    (h : ∀ q ∈ l, bursts_in_range [f q]) : bursts_in_range (l.map f) := by
  intro t ht payload hpl
  obtain ⟨q, hq, rfl⟩ := List.mem_map.1 ht
  exact h q hq _ (List.mem_singleton.2 rfl) payload hpl

theorem reset_is_no_burst (a : Nat) :
    burst_payload ⟨a, [0x80, 0x22, 0x80, 0, 0x80, 7]⟩ = none := by
  simp [burst_payload]

theorem command_is_no_burst (a c : Nat) : burst_payload ⟨a, [0x80, c]⟩ = none := by
  simp [burst_payload]

theorem v_line_bursts_in_range (a b n : Nat) : bursts_in_range (v_line_bursts a b n) := by
  unfold v_line_bursts
  rw [bursts_in_range_append]
  constructor
  · apply bursts_in_range_map
    intro k hk
    have hk' := List.mem_range.1 hk
    have hb : (⟨a, 0x40 :: List.replicate (min 8 (n - 8 * k)) b⟩ : Txn)
        = data_burst a 0xFF (List.replicate (min 8 (n - 8 * k)) b) := by
      simp [data_burst]
    rw [hb]
    apply bursts_in_range_data
    · rw [List.length_replicate]
      omega
    · rw [List.length_replicate]
      omega
  · split
    · intro t ht
      simp at ht
    · exact bursts_in_range_command _ _ (reset_is_no_burst a)

/-- C16: every data burst of a public operation called with in-range arguments has a
payload of 1 to 8 bytes: the operation returns, and each transaction it emits that has
the shape of a data burst carries between 1 and 8 payload bytes (and there is such a
transaction).  This holds for `oled_clear_display`, for `oled_draw_string` in both modes
(text that fits the buffer), for `oled_draw_h_line` with `x1 < x2 <= 64`, and for
`oled_draw_v_line` with `y1 < y2`. -/
theorem burst_lengths_in_range (st : Oled) (text : List Nat) (inverse : Bool)
    (x1 x2 y color y1 y2 x : Nat)
    (hnz : ∀ c ∈ text, c ≠ 0) (hfit : text.length * (st.m_font_width + 1) ≤ 64)
    (hp : st.m_draw_pos < 256) (hx12 : x1 < x2) (hx2 : x2 ≤ 64) (hy12 : y1 < y2)
    (hy2 : y2 < 256) :
    (∃ s emitted, oled_clear_display st = some s ∧ s.wire = st.wire ++ emitted ∧
      bursts_in_range emitted ∧ ∃ t ∈ emitted, (burst_payload t).isSome = true) ∧
    (∃ s emitted, oled_draw_string st text inverse = some s ∧
      s.wire = st.wire ++ emitted ∧
      bursts_in_range emitted ∧ ∃ t ∈ emitted, (burst_payload t).isSome = true) ∧
    (∃ s emitted, oled_draw_h_line st x1 x2 y color = some s ∧
      s.wire = st.wire ++ emitted ∧
      bursts_in_range emitted ∧ ∃ t ∈ emitted, (burst_payload t).isSome = true) ∧
    (∃ s emitted, oled_draw_v_line st y1 y2 x = some s ∧ s.wire = st.wire ++ emitted ∧
      bursts_in_range emitted ∧ ∃ t ∈ emitted, (burst_payload t).isSome = true) := by
  refine ⟨?_, ?_, ?_, ?_⟩
  · obtain ⟨s, h, _, hw⟩ := clear_display_eq st
    refine ⟨s, _, h, by rw [hw, List.append_assoc, List.append_assoc], ?_, ?_⟩
    · rw [bursts_in_range_append, bursts_in_range_append]
      refine ⟨bursts_in_range_command _ _ (command_is_no_burst _ _), ?_,
        bursts_in_range_command _ _ (command_is_no_burst _ _)⟩
      apply bursts_in_range_map
      intro j hj
      have hj' := List.mem_range.1 hj
      have hb : (⟨st.m_address,
          [0x80, 0x21, 0x80, j, 0x80, j, 0x40, 0, 0, 0, 0, 0, 0, 0, 0]⟩ : Txn)
          = data_burst st.m_address j [0, 0, 0, 0, 0, 0, 0, 0] := by
        have hne : ¬ (j = 255) := by omega
        simp [data_burst, hne]
      rw [hb]
      exact bursts_in_range_data _ _ _ (by decide) (by decide)
    · refine ⟨⟨st.m_address,
        [0x80, 0x21, 0x80, 0, 0x80, 0, 0x40, 0, 0, 0, 0, 0, 0, 0, 0]⟩, ?_,
        by simp [burst_payload]⟩
      simp only [List.mem_append, List.mem_map, List.mem_range]
      exact Or.inr (Or.inl ⟨0, by decide, rfl⟩)
  · have hnz' : ∀ m, m < text.length → text.getD m 0 ≠ 0 := by
      intro m hm
      rw [List.getD_eq_getElem text 0 hm]
      exact hnz _ (List.getElem_mem hm)
    obtain ⟨buf, hbuf, hlen, _, _⟩ := string_buf_pixels st text inverse hnz' hfit
    obtain ⟨s, h, _, hw⟩ := draw_string_wire st text inverse buf hbuf hlen hp
    refine ⟨s, _, h, hw, ?_, ?_⟩
    · apply bursts_in_range_map
      intro q hq
      have hq' : q < 8 := by
        have := List.mem_range.1 hq
        split at this <;> omega
      have hpl : ((buf.drop (8 * q)).take 8).length = 8 := by
        rw [List.length_take, List.length_drop]
        omega
      exact bursts_in_range_data _ _ _ (by omega) (by omega)
    · refine ⟨_, List.mem_map.2 ⟨0, List.mem_range.2 (by split <;> omega), rfl⟩, ?_⟩
      rw [burst_payload_data_burst]
      rfl
  · obtain ⟨buf, s, _, hlen, _, h, _, hw⟩ := h_line_eq st x1 x2 y color hx12 hx2
    have hpl : ((if color ≠ 0 then buf else List.replicate 8 0).take (8 - x1 / 8)).length
        = 8 - x1 / 8 := by
      rw [List.length_take]
      split
      · omega
      · simp
    refine ⟨s, _, h, hw, ?_, ?_⟩
    · rw [← List.singleton_append, bursts_in_range_append]
      refine ⟨bursts_in_range_data _ _ _ (by omega) (by omega), ?_⟩
      split
      · intro t ht
        simp at ht
      · exact bursts_in_range_command _ _ (reset_is_no_burst _)
    · refine ⟨_, List.mem_cons_self _ _, ?_⟩
      rw [burst_payload_data_burst]
      rfl
  · obtain ⟨s, h, _, hw⟩ := v_line_eq st y1 y2 x hy2
    refine ⟨s, _, h, by rw [hw, List.append_assoc, List.append_assoc], ?_, ?_⟩
    · rw [bursts_in_range_append, bursts_in_range_append]
      refine ⟨?_, v_line_bursts_in_range _ _ _,
        bursts_in_range_command _ _ (reset_is_no_burst _)⟩
      intro t ht payload hpl
      simp only [List.mem_cons, List.mem_singleton, List.not_mem_nil, or_false] at ht
      rcases ht with rfl | rfl | rfl | rfl <;> simp [burst_payload] at hpl
    · refine ⟨⟨st.m_address, 0x40 :: List.replicate (min 8 (y2 - y1 - 8 * 0))
        ((1 <<< (sub8 63 x &&& 7)) % 256)⟩, ?_, by simp [burst_payload]⟩
      simp only [List.mem_append, v_line_bursts, List.mem_map, List.mem_range]
      exact Or.inr (Or.inl (Or.inl ⟨0, by omega, rfl⟩))

theorem burst_lengths_in_range_witness :
    (∃ s emitted, oled_clear_display (sample_state 5) = some s ∧
      s.wire = (sample_state 5).wire ++ emitted ∧
      bursts_in_range emitted ∧ ∃ t ∈ emitted, (burst_payload t).isSome = true) ∧
    (∃ s emitted, oled_draw_string (sample_state 5) [72, 105] true = some s ∧
      s.wire = (sample_state 5).wire ++ emitted ∧
      bursts_in_range emitted ∧ ∃ t ∈ emitted, (burst_payload t).isSome = true) ∧
    (∃ s emitted, oled_draw_h_line (sample_state 5) 20 30 7 1 = some s ∧
      s.wire = (sample_state 5).wire ++ emitted ∧
      bursts_in_range emitted ∧ ∃ t ∈ emitted, (burst_payload t).isSome = true) ∧
    (∃ s emitted, oled_draw_v_line (sample_state 5) 3 20 10 = some s ∧
      s.wire = (sample_state 5).wire ++ emitted ∧
      bursts_in_range emitted ∧ ∃ t ∈ emitted, (burst_payload t).isSome = true) :=
  burst_lengths_in_range (sample_state 5) [72, 105] true 20 30 7 1 3 20 10 (by decide)
    (by decide) (by decide) (by decide) (by decide) (by decide) (by decide)

/-! ## The current column after each operation -/

/-- C17 (as stated, refuted): started with `m_draw_pos = 0`, `oled_clear_display` returns
with `m_draw_pos = 128`, and `oled_draw_h_line` to column 127 returns with
`m_draw_pos = 128` as well: a value that is neither a column `0..127` nor `0xFF`. -/
theorem clear_display_leaves_column_128 :
    (oled_clear_display (sample_state 0)).map (fun s => s.m_draw_pos) = some 128 ∧
    (oled_draw_h_line (sample_state 0) 0 64 127 1).map (fun s => s.m_draw_pos)
      = some 128 ∧
    ¬ (128 ≤ 127 ∨ 128 = 0xFF) := by
  obtain ⟨s, h, hp, _⟩ := clear_display_eq (sample_state 0)
  refine ⟨by rw [h, Option.map_some', hp], by decide, by decide⟩

/-- C17 (amended): every public operation called with in-range arguments in a state with
`m_draw_pos` in `0..127` returns with `m_draw_pos` in `0..135`, never the raw-mode value
`0xFF`: `oled_clear_display` leaves 128, `oled_set_y` with `y <= 127` leaves `y`,
`oled_draw_string` leaves the entry value plus 7 (normal) or 8 (inverse),
`oled_draw_h_line` with `y <= 127` leaves `y + 1`, and `oled_draw_v_line` leaves the
entry value. -/
theorem current_column_after_operations (st : Oled) (text : List Nat) (inverse : Bool)
    (x1 x2 y color y1 y2 x : Nat) (hp : st.m_draw_pos ≤ 127)
    (hnz : ∀ c ∈ text, c ≠ 0) (hfit : text.length * (st.m_font_width + 1) ≤ 64)
    (hx12 : x1 < x2) (hx2 : x2 ≤ 64) (hy : y ≤ 127) (hy2 : y2 < 256) :
    (∃ s, oled_clear_display st = some s ∧ s.m_draw_pos = 128) ∧
    ((oled_set_y st y).m_draw_pos = y ∧ (oled_set_y st y).m_draw_pos ≤ 127) ∧
    (∃ s, oled_draw_string st text inverse = some s ∧
      s.m_draw_pos = st.m_draw_pos + (if inverse then 8 else 7) ∧ s.m_draw_pos ≤ 135) ∧
    (∃ s, oled_draw_h_line st x1 x2 y color = some s ∧ s.m_draw_pos = y + 1 ∧
      s.m_draw_pos ≤ 128) ∧
    (∃ s, oled_draw_v_line st y1 y2 x = some s ∧ s.m_draw_pos = st.m_draw_pos ∧
      s.m_draw_pos ≤ 127) := by
  refine ⟨?_, ⟨rfl, hy⟩, ?_, ?_, ?_⟩
  · obtain ⟨s, h, hp', _⟩ := clear_display_eq st
    exact ⟨s, h, hp'⟩
  · have hnz' : ∀ m, m < text.length → text.getD m 0 ≠ 0 := by
      intro m hm
      rw [List.getD_eq_getElem text 0 hm]
      exact hnz _ (List.getElem_mem hm)
    obtain ⟨buf, hbuf, hlen, _, _⟩ := string_buf_pixels st text inverse hnz' hfit
    obtain ⟨s, h, hpos, _⟩ := draw_string_wire st text inverse buf hbuf hlen (by omega)
    have hnb : (if inverse = true then 8 else 7) ≤ 8 := by split <;> omega
    refine ⟨s, h, ?_, ?_⟩
    · rw [hpos]
      omega
    · rw [hpos]
      omega
  · obtain ⟨_, s, _, _, _, h, hpos, _⟩ := h_line_eq st x1 x2 y color hx12 hx2
    refine ⟨s, h, ?_, ?_⟩
    · rw [hpos]
      omega
    · rw [hpos]
      omega
  · obtain ⟨s, h, hpos, _⟩ := v_line_eq st y1 y2 x hy2
    exact ⟨s, h, hpos, by rw [hpos]; exact hp⟩

theorem current_column_after_operations_witness :
    (∃ s, oled_clear_display (sample_state 5) = some s ∧ s.m_draw_pos = 128) ∧
    ((oled_set_y (sample_state 5) 7).m_draw_pos = 7 ∧
      (oled_set_y (sample_state 5) 7).m_draw_pos ≤ 127) ∧
    (∃ s, oled_draw_string (sample_state 5) [72, 105] true = some s ∧
      s.m_draw_pos = (sample_state 5).m_draw_pos + (if true then 8 else 7) ∧
      s.m_draw_pos ≤ 135) ∧
    (∃ s, oled_draw_h_line (sample_state 5) 20 30 7 1 = some s ∧ s.m_draw_pos = 7 + 1 ∧
      s.m_draw_pos ≤ 128) ∧
    (∃ s, oled_draw_v_line (sample_state 5) 3 20 10 = some s ∧
      s.m_draw_pos = (sample_state 5).m_draw_pos ∧ s.m_draw_pos ≤ 127) :=
  current_column_after_operations (sample_state 5) [72, 105] true 20 30 7 1 3 20 10
    (by decide) (by decide) (by decide) (by decide) (by decide) (by decide) (by decide)

end Ssd1306
